import Mathlib

/-!
# Verification of the lug PEG parsing virtual machine (src/lug/lug.hpp)

This file gives a shallow embedding of the parsing virtual machine of the lug
parser-combinator library and proves properties of it.  The embedding follows
`parser::parse` and its helpers in `src/lug/lug.hpp` instruction by
instruction.

Modelling conventions, stated once here:

* Machine integers (`std::size_t`, `unsigned short`) are modelled as `Nat`,
  program counters (`std::ptrdiff_t`) as `Int`.  None of the verified claims
  depends on fixed-width overflow: the encoder guards every offset and
  immediate with range checks (`program_limit_error`, `resource_limit_error`)
  at construction time.
* The C++ parser keeps a discriminator stack `stack_frames_` in lockstep with
  four typed payload stacks (`backtrack_stack_`, `call_stack_`,
  `capture_stack_`, `lrmemo_stack_`): a frame is always pushed and popped on
  the discriminator stack together with its payload stack.  The embedding
  fuses them into a single stack of payload-carrying frames; the typed stacks
  are recovered as filtered views.
* The left-recursion failure sentinel `lrfailcode`
  (`std::numeric_limits<std::size_t>::max()`) on the memo answer `sa.ir` is
  modelled by making the answer an `Option Subject`, `none` standing for the
  sentinel.
* The UTF-8 and Unicode helpers (`lug/utf8.hpp`, `lug/unicode.hpp`) are not
  under `src/`; the spec lists them as external collaborators.  They are
  modelled as a parameter structure `UnicodeExt`; theorems hold for every
  instantiation, and concrete witnesses use a simple ASCII instantiation.
* Input sources are modelled as fully pre-loaded: with no registered sources,
  `parser::available` reduces to the length check `n <= input_.size() - ir`
  (its `read_more` loop appends nothing and returns false).
* The side tables of semantic actions and captures hold opaque user closures
  acting on data outside the machine; the VM only records their indices in
  the response log, which is what the embedding keeps.  Semantic predicates
  can observe and mutate the saved registers through `parser::registers()`,
  so they are modelled as functions from registers to a pass/fail flag and
  updated registers.
-/

namespace Lug

/-- The current input cursor: byte index `ir`, column `cr`, line `lr`
(struct `parser::subject` in the source). -/
structure Subject where
  ir : Nat
  cr : Nat
  lr : Nat
deriving DecidableEq, Repr

/-- One queued semantic effect (`semantic_response` in the source):
call depth, action index, and for captures the capture-table index
(the C++ `UINT_MAX` sentinel for "no capture" is modelled as `none`). -/
structure Response where
  callDepth : Nat
  actionIndex : Nat
  captureIndex : Option Nat
deriving DecidableEq, Repr

/-- A recorded capture (`syntax_range`): byte index and size plus the
(start, end) (column, line) pairs. -/
structure SyntaxRange where
  index : Nat
  size : Nat
  startPos : Nat × Nat
  endPos : Nat × Nat
deriving DecidableEq, Repr

/-- A left-recursion memo entry (`parser::lrmemo`): seed subject `sr`,
best answer `sa` (`none` = the `lrfailcode` sentinel), response count at
entry `rcr`, return pc `pcr`, callee pc `pca`, the responses captured for
the answer, and the callsite precedence. -/
structure LrMemo where
  sr : Subject
  sa : Option Subject
  rcr : Nat
  pcr : Int
  pca : Int
  responses : List Response
  prec : Nat
deriving DecidableEq, Repr

/-- A stack frame.  The source keeps a `stack_frame_type` discriminator
stack in lockstep with four payload stacks; here the discriminator and the
payload are fused into one constructor per frame kind. -/
inductive Frame where
  | backtrack (ir cr lr rc : Nat) (pc : Int)
  | call (pc : Int)
  | capture (sub : Subject)
  | lrcall (m : LrMemo)
deriving DecidableEq, Repr

/-- The sixteen opcodes of the VM (`enum class opcode`). -/
inductive Opcode where
  | matchOp | matchAny | matchClass | matchRange
  | choice | commit | jump | call
  | ret | fail | accept | newline
  | predicate | action | beginCapture | endCapture
deriving DecidableEq, Repr

/-- One 32-bit instruction word (`union instruction`): a prefix
`{op, aux, val}` (with the `off` and `str` operand flags and the 6-bit
altcode from `aux` made explicit), a signed offset word, or four bytes of
inline string data. -/
inductive Word where
  | pfx (op : Opcode) (hasOff hasStr : Bool) (alt : Nat) (val : Nat)
  | off (o : Int)
  | strw (b0 b1 b2 b3 : Nat)
deriving DecidableEq, Repr

/-- A decoded instruction as produced by `instruction::decode`:
opcode, altcode, immediate, offset and inline string bytes. -/
structure Decoded where
  op : Opcode
  alt : Nat
  imm : Nat
  off : Int
  str : List Nat
deriving DecidableEq, Repr

/-- Fetch the word at a (possibly out-of-range) program counter. -/
def fetch (prog : List Word) (pc : Int) : Option Word :=
  if h : 0 ≤ pc ∧ pc.toNat < prog.length then some (prog.get ⟨pc.toNat, h.2⟩) else none

/-- Collect `n` consecutive inline-string words starting at `pc` and
flatten them to their bytes.  `instruction::decode` reads the bytes of the
words following the prefix; a word that is not string data would be a
corrupt program, yielding `none`. -/
def takeStrWords (prog : List Word) (pc : Int) : Nat → Option (List Nat)
  | 0 => some []
  | n + 1 =>
    match fetch prog pc with
    | some (.strw b0 b1 b2 b3) =>
      match takeStrWords prog (pc + 1) n with
      | some bs => some (b0 :: b1 :: b2 :: b3 :: bs)
      | none => none
    | _ => none

/-- `instruction::decode`: read the prefix at `pc`, an offset word when the
`off` operand flag is set, and `(val & 0xff) + 1` inline string bytes when
the `str` flag is set (in which case the immediate becomes
`(val >> 8) + 1`).  Returns the decoded instruction and the advanced
program counter. -/
def decode (prog : List Word) (pc : Int) : Option (Decoded × Int) :=
  match fetch prog pc with
  | some (.pfx op hasOff hasStr alt val) =>
    let pc1 := pc + 1
    let offRes : Option (Int × Int) :=
      if hasOff then
        match fetch prog pc1 with
        | some (.off o) => some (o, pc1 + 1)
        | _ => none
      else some (0, pc1)
    match offRes with
    | none => none
    | some (off, pc2) =>
      if hasStr then
        let nbytes := val % 256 + 1
        let nwords := (val % 256 + 4) / 4
        match takeStrWords prog pc2 nwords with
        | some bytes => some (⟨op, alt, val / 256 + 1, off, bytes.take nbytes⟩, pc2 + nwords)
        | none => none
      else some (⟨op, alt, val, off, []⟩, pc2)
  | _ => none

/-- The parser registers visible to a semantic predicate
(`parser_registers`). -/
structure Regs where
  ir : Nat
  cr : Nat
  lr : Nat
  rc : Nat
  pc : Int
  fc : Nat
deriving DecidableEq, Repr

/-- A program: the instruction words plus the side table of semantic
predicates (struct `program`; the action and capture tables hold opaque
user closures whose indices alone drive the VM). -/
structure Prog where
  instructions : List Word
  predicates : List (Regs → Bool × Regs)

/-- The external UTF-8 / Unicode collaborators (`lug/utf8.hpp`,
`lug/unicode.hpp`, which are outside `src/`): rune length, rune decoding,
and the per-altcode Unicode class queries of `opcode::match_class`.
`ptypeMatch`/`gctypeMatch` return `none` when the inline constant is too
short, modelling `instruction::decode_constant` throwing `bad_opcode`. -/
structure UnicodeExt where
  sizeOfFirstRune : List Nat → Nat
  decodeRune : List Nat → Nat × Nat
  ctypeMatch : Nat → Nat → Bool
  ptypeMatch : List Nat → Nat → Option Bool
  gctypeMatch : List Nat → Nat → Option Bool
  scriptOf : Nat → Nat

/-- The error conditions of the library (the `lug_error` hierarchy). -/
inductive VmErr where
  | programLimit | resourceLimit
  | reentrantParse | reentrantRead
  | badStringExpression | badCharacterClass
  | badGrammar | badOpcode
deriving DecidableEq, Repr

/-- The full state of one `parser::parse` activation: the input buffer,
the working registers, the furthest-position record `max_input_`, the
deferred-cut bookkeeping, the fused frame stack, the semantics response
log and capture table, and the loop flags `result`/`done`. -/
structure Machine where
  input : List Nat
  ir : Nat
  cr : Nat
  lr : Nat
  rc : Nat
  pc : Int
  fc : Nat
  maxInput : Subject
  cutDeferred : Bool
  cutFrame : Nat
  stack : List Frame
  responses : List Response
  captures : List SyntaxRange
  result : Bool
  done : Bool
deriving DecidableEq, Repr

namespace Machine

/-- `semantics::pop_responses_after`. -/
def popResponsesAfter (n : Nat) (rs : List Response) : List Response :=
  if n < rs.length then rs.take n else rs

/-- `semantics::drop_responses_after`: the dropped tail and the kept
prefix. -/
def dropResponsesAfter (n : Nat) (rs : List Response) : List Response × List Response :=
  if n < rs.length then (rs.drop n, rs.take n) else ([], rs)

/-- `semantics::restore_responses_after`: truncate to `n` then append the
saved responses; the new response count is the resulting length. -/
def restoreResponsesAfter (n : Nat) (rs restore : List Response) : List Response :=
  popResponsesAfter n rs ++ restore

/-- Is there a capture frame on the stack (`!capture_stack_.empty()`)? -/
def hasCaptureFrame (s : List Frame) : Bool :=
  s.any fun f => match f with | .capture _ => true | _ => false

/-- Is there a left-recursion frame on the stack
(`!lrmemo_stack_.empty()`)? -/
def hasLrFrame (s : List Frame) : Bool :=
  s.any fun f => match f with | .lrcall _ => true | _ => false

/-- The left-recursion memo stack, newest first
(the `lrmemo_stack_` view of the fused stack). -/
def lrmemos (s : List Frame) : List LrMemo :=
  s.filterMap fun f => match f with | .lrcall m => some m | _ => none

/-- `call_stack_.size() + lrmemo_stack_.size()`, the call depth recorded
on responses. -/
def callDepth (s : List Frame) : Nat :=
  (s.filter fun f => match f with | .call _ => true | .lrcall _ => true | _ => false).length

/-- `if (ir > max_input_.ir) max_input_ = {ir, cr, lr};` -/
def updMax (s : Machine) : Machine :=
  if s.maxInput.ir < s.ir then { s with maxInput := ⟨s.ir, s.cr, s.lr⟩ } else s

/-- `parser::available` with all input pre-loaded (no sources): the
residual loop reduces to the length check. -/
def available (s : Machine) (n : Nat) : Bool :=
  n + s.ir ≤ s.input.length

/-- Byte-substring equality: `input_.compare(ir, n, str) == 0`. -/
def substrEq (input : List Nat) (ir : Nat) (str : List Nat) : Bool :=
  (input.drop ir).take str.length = str

/-- Three-way lexicographic comparison of byte strings, the order used by
`std::string::compare`. -/
def lexCmp : List Nat → List Nat → Ordering
  | [], [] => .eq
  | [], _ :: _ => .lt
  | _ :: _, [] => .gt
  | a :: as, b :: bs =>
    if a < b then .lt else if b < a then .gt else lexCmp as bs

/-- `input_.compare(ir, n, str)` as an `Ordering`. -/
def cmpSub (input : List Nat) (ir n : Nat) (str : List Nat) : Ordering :=
  lexCmp ((input.drop ir).take n) str

/-- `parser::accept`: commit the semantic responses (the user callbacks
act outside the machine; `semantics::accept` ends in `clear()`, emptying
the response log), erase the consumed input prefix, zero `ir`, `rc` and
`max_input_.ir`, clear the deferred-cut flag and advance the cut frame to
the current stack height.  `cr`, `lr` and `pc` are preserved. -/
def acceptCommit (s : Machine) : Machine :=
  { s with
    input := s.input.drop s.ir
    ir := 0
    rc := 0
    maxInput := { s.maxInput with ir := 0 }
    cutDeferred := false
    cutFrame := s.stack.length
    responses := [] }

/-- `parser::pop_stack_frame` on the capture or left-recursion stacks:
after the pop, a deferred cut is committed once no capture or
left-recursion frames remain. -/
def maybeDeferredAccept (s : Machine) : Machine :=
  if s.cutDeferred && !hasCaptureFrame s.stack && !hasLrFrame s.stack then acceptCommit s else s

/-- `parser::pop_stack_frame` without the deferred-accept check
(backtrack and call stacks): drop the top frame and clamp `cut_frame_`. -/
def popTop (s : Machine) : Machine :=
  { s with stack := s.stack.tail, cutFrame := min s.cutFrame s.stack.tail.length }

/-- The failure-propagation loop at the `failure:` label of
`parser::parse` (`for (++fc; fc > 0; --fc)`; here `s.fc` holds the
already pre-incremented count):

* while the fail count is positive, if `cut_frame_` has reached the stack
  height the parse ends (`done = true`);
* a `backtrack` frame restores `(ir, cr, lr, rc, pc)` and consumes one
  fail level;
* a `call` frame is dropped and the failure propagates (`++fc`);
* a `capture` frame is dropped (running a deferred cut if it was the last
  blocking frame) and the failure propagates;
* an `lrcall` frame with an answer commits the answer (restoring subject,
  `pc` from `pcr` and the captured responses) and consumes one fail
  level; with the `FAIL` sentinel it propagates. -/
def unwindAux : Nat → Machine → Machine
  | 0, s => if s.fc = 0 then s else { s with done := true }
  | n + 1, s =>
    if s.fc = 0 then s
    else if s.stack.length ≤ s.cutFrame then { s with done := true }
    else
      match s.stack with
      | [] => { s with done := true }
      | .backtrack bir bcr blr brc bpc :: rest =>
        unwindAux n { s with
          ir := bir, cr := bcr, lr := blr, rc := brc, pc := bpc
          stack := rest, cutFrame := min s.cutFrame rest.length
          fc := s.fc - 1 }
      | .call _ :: rest =>
        unwindAux n { s with
          stack := rest, cutFrame := min s.cutFrame rest.length }
      | .capture _ :: rest =>
        unwindAux n (maybeDeferredAccept { s with
          stack := rest, cutFrame := min s.cutFrame rest.length })
      | .lrcall m :: rest =>
        match m.sa with
        | some a =>
          unwindAux n (maybeDeferredAccept { s with
            ir := a.ir, cr := a.cr, lr := a.lr, pc := m.pcr
            rc := (restoreResponsesAfter m.rcr s.responses m.responses).length
            responses := restoreResponsesAfter m.rcr s.responses m.responses
            stack := rest, cutFrame := min s.cutFrame rest.length
            fc := s.fc - 1 })
        | none =>
          unwindAux n (maybeDeferredAccept { s with
            stack := rest, cutFrame := min s.cutFrame rest.length })

/-- The failure-propagation loop proper.  Every iteration of the C++
loop pops exactly one frame, so running `unwindAux` with the stack
height as its iteration budget is exact: the budget runs out only with
an empty stack, where the loop's own `cut_frame_ >= stack_frames_.size()`
check ends the parse just the same. -/
def unwind (s : Machine) : Machine :=
  unwindAux s.stack.length s

/-- Entry into the failure path (`goto failure`): record the furthest
input position, run the unwinding loop with the incremented fail count,
then truncate the response log at the restored `rc`. -/
def failWith (s : Machine) : Machine :=
  let s1 := unwind { s.updMax with fc := s.fc + 1 }
  { s1 with responses := popResponsesAfter s1.rc s1.responses }

end Machine

/-- The left-recursion memo scan of `opcode::call`: walk the memo stack
from newest backward while `memo.sr.ir >= ir`, looking for a memo with
`memo.sr.ir == ir` and `memo.pca == pca`. -/
def findMemo (ir : Nat) (pca : Int) : List LrMemo → Option LrMemo
  | [] => none
  | m :: rest =>
    if m.sr.ir ≥ ir then
      if m.sr.ir = ir ∧ m.pca = pca then some m else findMemo ir pca rest
    else none

/-- The per-altcode Unicode query of `opcode::match_class`: the
`switch (alt)` computing `match` (`match_class_ptype` = 1,
`match_class_gctype` = 2, `match_class_sctype` = 3, flags otherwise);
`none` models `decode_constant` throwing `bad_opcode` on a short inline
constant. -/
def classQuery (ext : UnicodeExt) (alt imm : Nat) (str : List Nat) (rune : Nat) : Option Bool :=
  match alt with
  | 1 => ext.ptypeMatch str rune
  | 2 => ext.gctypeMatch str rune
  | 3 => some (decide (ext.scriptOf rune = imm))
  | _ => some (ext.ctypeMatch imm rune)

open Machine in
/-- One iteration of the fetch/decode/dispatch loop of `parser::parse`.
Returns `Except` to model the `throw` sites reachable from the loop; a
decode on a corrupt or out-of-range program counter and the `default:`
case of the dispatch both raise `bad_opcode`. -/
def step (P : Prog) (ext : UnicodeExt) (s : Machine) : Except VmErr Machine :=
  match decode P.instructions s.pc with
  | none => .error .badOpcode
  | some (d, pc') =>
    let s := { s with pc := pc' }
    match d.op with
    | .matchOp =>
      if d.str.isEmpty then .ok s
      else if s.available d.str.length && substrEq s.input s.ir d.str then
        .ok { s with ir := s.ir + d.str.length, cr := s.cr + d.imm }
      else .ok s.failWith
    | .matchAny =>
      if s.available 1 then
        .ok { s with ir := s.ir + ext.sizeOfFirstRune (s.input.drop s.ir), cr := s.cr + 1 }
      else .ok s.failWith
    | .matchClass =>
      if s.available 1 then
        let rs := ext.decodeRune (s.input.drop s.ir)
        match classQuery ext d.alt d.imm d.str rs.1 with
        | none => .error .badOpcode
        | some b =>
          if b then .ok s.failWith
          else .ok { s with ir := s.ir + rs.2, cr := s.cr + 1 }
      else .ok s.failWith
    | .matchRange =>
      let first := d.str.take d.imm
      let last := d.str.drop d.imm
      if s.available (min first.length last.length) then
        let sz := ext.sizeOfFirstRune (s.input.drop s.ir)
        if cmpSub s.input s.ir sz first = .lt ∨ cmpSub s.input s.ir sz last = .gt then
          .ok s.failWith
        else .ok { s with ir := s.ir + sz, cr := s.cr + 1 }
      else .ok s.failWith
    | .choice =>
      .ok { s with stack := .backtrack (s.ir - d.imm % 256) (s.cr - d.imm / 256) s.lr s.rc (s.pc + d.off) :: s.stack }
    | .commit =>
      match s.stack with
      | .backtrack bir bcr blr _ bpc :: rest =>
        match d.alt with
        | 2 =>
          .ok { s with
            stack := .backtrack s.ir s.cr s.lr s.rc bpc :: rest
            pc := s.pc + d.off }
        | 1 =>
          .ok { (popTop { s with ir := bir, cr := bcr, lr := blr }) with pc := s.pc + d.off }
        | _ => .ok { s.popTop with pc := s.pc + d.off }
      | _ => .ok s.failWith
    | .jump => .ok { s with pc := s.pc + d.off }
    | .call =>
      if d.imm ≠ 0 then
        match findMemo s.ir (s.pc + d.off) (lrmemos s.stack) with
        | some m =>
          match m.sa with
          | none => .ok s.failWith
          | some a =>
            if d.imm < m.prec then .ok s.failWith
            else
              .ok { s with
                ir := a.ir, cr := a.cr, lr := a.lr
                rc := (restoreResponsesAfter m.rcr s.responses m.responses).length
                responses := restoreResponsesAfter m.rcr s.responses m.responses }
        | none =>
          .ok { s with
            stack := .lrcall ⟨⟨s.ir, s.cr, s.lr⟩, none, s.rc, s.pc, s.pc + d.off, [], d.imm⟩ :: s.stack
            pc := s.pc + d.off }
      else
        .ok { s with stack := .call s.pc :: s.stack, pc := s.pc + d.off }
    | .ret =>
      match s.stack with
      | .call cpc :: _ => .ok (popTop { s with pc := cpc })
      | .lrcall m :: rest =>
        if m.sa = none ∨ (m.sa.map Subject.ir).getD 0 < s.ir then
          .ok { s with
            stack := .lrcall { m with
              sa := some ⟨s.ir, s.cr, s.lr⟩
              responses := (dropResponsesAfter m.rcr s.responses).1 } :: rest
            responses := (dropResponsesAfter m.rcr s.responses).2
            ir := m.sr.ir, cr := m.sr.cr, lr := m.sr.lr
            rc := m.rcr, pc := m.pca }
        else
          match m.sa with
          | some a =>
            .ok (maybeDeferredAccept (popTop { s with
              ir := a.ir, cr := a.cr, lr := a.lr, pc := m.pcr
              rc := (restoreResponsesAfter m.rcr s.responses m.responses).length
              responses := restoreResponsesAfter m.rcr s.responses m.responses }))
          | none => .ok s.failWith
      | _ => .ok s.failWith
    | .fail => .ok (failWith { s with fc := d.imm })
    | .accept =>
      let deferred := hasCaptureFrame s.stack || hasLrFrame s.stack
      let s := { s with cutDeferred := deferred }
      if deferred then .ok s
      else
        let s := s.acceptCommit
        if d.alt = 1 then .ok { s with result := true, done := true } else .ok s
    | .newline => .ok { s with cr := 1, lr := s.lr + 1 }
    | .predicate =>
      match P.predicates.get? d.imm with
      | none => .error .badOpcode
      | some p =>
        let s := s.updMax
        let r := p ⟨s.ir, s.cr, s.lr, s.rc, s.pc, 0⟩
        let s := { s with
          ir := r.2.ir, cr := r.2.cr, lr := r.2.lr, rc := r.2.rc, pc := r.2.pc, fc := r.2.fc
          responses := popResponsesAfter r.2.rc s.responses }
        if r.1 then .ok s else .ok s.failWith
    | .action =>
      .ok { s with
        responses := s.responses ++ [⟨callDepth s.stack, d.imm, none⟩]
        rc := s.responses.length + 1 }
    | .beginCapture =>
      .ok { s with stack := .capture ⟨s.ir, s.cr, s.lr⟩ :: s.stack }
    | .endCapture =>
      match s.stack with
      | .capture c0 :: _ =>
        let ir1 := s.ir
        let cr1 := s.cr
        let lr1 := s.lr
        let s := maybeDeferredAccept s.popTop
        if ir1 < c0.ir then .ok s.failWith
        else
          .ok { s with
            responses := s.responses ++ [⟨callDepth s.stack, d.imm, some s.captures.length⟩]
            captures := s.captures ++ [⟨c0.ir, ir1 - c0.ir, (c0.cr, c0.lr), (cr1, lr1)⟩]
            rc := s.responses.length + 1 }
      | _ => .ok s.failWith

/-- The initial machine for a fresh parser: `registers_{0, 1, 1, 0, 0, 0}`
and `max_input_{0, 1, 1}`, with `rc`, `pc`, `fc`, the deferred-cut state
and the semantics cleared as in the preamble of `parser::parse`. -/
def initMachine (input : List Nat) : Machine :=
  { input := input
    ir := 0, cr := 1, lr := 1, rc := 0, pc := 0, fc := 0
    maxInput := ⟨0, 1, 1⟩
    cutDeferred := false, cutFrame := 0
    stack := [], responses := [], captures := []
    result := false, done := false }

/-- Run the fetch/execute loop for at most `fuel` iterations; `none`
means the bound was exhausted before `done` was set. -/
def run (P : Prog) (ext : UnicodeExt) : Nat → Machine → Except VmErr (Option Machine)
  | 0, _ => .ok none
  | fuel + 1, s =>
    if s.done then .ok (some s)
    else
      match step P ext s with
      | .error e => .error e
      | .ok s' => run P ext fuel s'

/-- `parser::parse`: the reentrancy sentinel, the empty-grammar check,
then the VM loop from the initial machine.  `parsing` is the `parsing_`
flag observed by the sentinel. -/
def parse (P : Prog) (ext : UnicodeExt) (parsing : Bool) (fuel : Nat) (input : List Nat) :
    Except VmErr (Option Bool) :=
  if parsing then .error .reentrantParse
  else if P.instructions.isEmpty then .error .badGrammar
  else
    match run P ext fuel (initMachine input) with
    | .error e => .error e
    | .ok none => .ok none
    | .ok (some s) => .ok (some s.result)

/-- Iterate `step` a fixed number of times (regardless of `done`),
propagating errors; used to name intermediate configurations of concrete
runs. -/
def stepN (P : Prog) (ext : UnicodeExt) : Nat → Machine → Except VmErr Machine
  | 0, s => .ok s
  | n + 1, s =>
    match step P ext s with
    | .error e => .error e
    | .ok t => stepN P ext n t

/-- A concrete instantiation of the external UTF-8/Unicode collaborators
for witness runs: ASCII-oriented rune sizing (from the spec's lead-byte
description), and class queries that never match. -/
def asciiExt : UnicodeExt :=
  { sizeOfFirstRune := fun bs =>
      match bs with
      | [] => 1
      | b :: _ => if b < 0x80 then 1 else if b < 0xC0 then 1 else if b < 0xE0 then 2 else if b < 0xF0 then 3 else 4
    decodeRune := fun bs => (bs.headD 0, 1)
    ctypeMatch := fun _ _ => false
    ptypeMatch := fun _ _ => some false
    gctypeMatch := fun _ _ => some false
    scriptOf := fun _ => 0 }

/-- `asciiExt` with a flags (`ctype`) query that always matches. -/
def markExt : UnicodeExt :=
  { asciiExt with ctypeMatch := fun _ _ => true }

/-- A program consisting of one `match_class` instruction with the
`match_class_sctype` altcode and script immediate `i`. -/
def sctypeProg (i : Nat) : Prog :=
  { instructions := [.pfx .matchClass false false 3 i], predicates := [] }

/-- A program consisting of one `match_class` instruction with the
default (flags/`ctype`) altcode. -/
def ctypeProg : Prog :=
  { instructions := [.pfx .matchClass false false 0 0], predicates := [] }

/-- The grammar `start(rule(*eps))`, hand-linked following the source:
`operator*` compiles the body to `choice (2+L(e)) ; e ; commit_partial
-(2+L(e))` with `L(eps) = 1` (`eps` is a bare `match`); `start` prefixes
`call root ; accept accept_final` and appends `ret`, resolving the call
offset to `3 - (0 + 2) = 1`. -/
def starEpsProg : Prog :=
  { instructions :=
      [ .pfx .call true false 0 0, .off 1
      , .pfx .accept false false 1 0
      , .pfx .choice true false 0 0, .off 3
      , .pfx .matchOp false false 0 0
      , .pfx .commit true false 2 0, .off (-3)
      , .pfx .ret false false 0 0 ]
    predicates := [] }

/-- The configuration of the `start(rule(*eps))` run on empty input
after the initial `call` and `choice`, about to execute the `eps`
body at pc 5. -/
def starEpsA : Machine :=
  { input := []
    ir := 0, cr := 1, lr := 1, rc := 0, pc := 5, fc := 0
    maxInput := ⟨0, 1, 1⟩
    cutDeferred := false, cutFrame := 0
    stack := [.backtrack 0 1 1 0 8, .call 2]
    responses := [], captures := []
    result := false, done := false }

/-- The successor configuration of `starEpsA`, about to execute the
`commit_partial` at pc 6. -/
def starEpsB : Machine :=
  { starEpsA with pc := 6 }

/-- A program consisting of one final `accept` instruction
(`altcode::accept_final`). -/
def acceptFinalProg : Prog :=
  { instructions := [.pfx .accept false false 1 0], predicates := [] }

/-- A machine at an `accept_final` instruction with one capture frame
still open. -/
def openCaptureState : Machine :=
  { initMachine [] with stack := [.capture ⟨0, 1, 1⟩] }

/-- The empty grammar. -/
def emptyProg : Prog :=
  { instructions := [], predicates := [] }

/-- The grammar `start(rule(("a\n" > ilr > "bX") | ("a\nb" > "Q")))`,
hand-linked following the source: the ordered choice compiles to `choice
(2+L(e1)) ; e1 ; commit L(e2) ; e2`; a two-byte literal is one `match`
prefix with packed value `((2-1)<<8)|(2-1)` plus one inline data word;
`ilr` is a bare `newline`.  Byte values: "a" 97, "\n" 10, "b" 98,
"X" 88, "Q" 81. -/
def posRegressProg : Prog :=
  { instructions :=
      [ .pfx .call true false 0 0, .off 1
      , .pfx .accept false false 1 0
      , .pfx .choice true false 0 0, .off 7
      , .pfx .matchOp false true 0 0x101, .strw 97 10 0 0
      , .pfx .newline false false 0 0
      , .pfx .matchOp false true 0 0x101, .strw 98 88 0 0
      , .pfx .commit true false 0 0, .off 4
      , .pfx .matchOp false true 0 0x202, .strw 97 10 98 0
      , .pfx .matchOp false true 0 0, .strw 81 0 0 0
      , .pfx .ret false false 0 0 ]
    predicates := [] }

/-- Is the top stack frame a backtrack frame
(`stack_frames_.back() == stack_frame_type::backtrack`)? -/
def topIsBacktrack : List Frame → Bool
  | .backtrack _ _ _ _ _ :: _ => true
  | _ => false

/-- Is the top stack frame a call or left-recursion frame (the two frame
kinds `opcode::ret` accepts)? -/
def topIsCallLike : List Frame → Bool
  | .call _ :: _ => true
  | .lrcall _ :: _ => true
  | _ => false

/-- Is the top stack frame a capture frame? -/
def topIsCapture : List Frame → Bool
  | .capture _ :: _ => true
  | _ => false

/-- A program consisting of one `commit` instruction with the
`commit_back` altcode and offset 5. -/
def commitBackProg : Prog :=
  { instructions := [.pfx .commit true false 1 0, .off 5], predicates := [] }

/-- A machine with a single backtrack frame, for exercising `commit`. -/
def btState : Machine :=
  { initMachine [] with stack := [.backtrack 7 8 9 0 11] }

/-- A program consisting of one `ret` instruction. -/
def retProg : Prog :=
  { instructions := [.pfx .ret false false 0 0], predicates := [] }

/-- A left-recursion memo with seed at byte 0 and best answer at byte 0,
return pc 7, callee pc 9, precedence 1. -/
def growMemo : LrMemo :=
  ⟨⟨0, 1, 1⟩, some ⟨0, 1, 1⟩, 0, 7, 9, [], 1⟩

/-- A machine at a `ret` with the `growMemo` left-recursion frame on top
and the input register advanced beyond the memo answer. -/
def growState : Machine :=
  { initMachine [] with ir := 1, stack := [.lrcall growMemo] }


/-- Shift the absolute program addresses stored in a frame by `d`
(backtrack targets, call return addresses and left-recursion memo
addresses); the subject payloads are untouched. -/
def shiftFrame (d : Int) : Frame → Frame
  | .backtrack ir cr lr rc pc => .backtrack ir cr lr rc (pc + d)
  | .call pc => .call (pc + d)
  | .capture sub => .capture sub
  | .lrcall m => .lrcall { m with pcr := m.pcr + d, pca := m.pca + d }

/-- `start(rule(&e))` for an inline expression block `ec`:
`operator&` compiles to `choice (2+L(e)) ; e ; commit_back 1 ; fail`, and
`start` wraps the rule body in `call 1 ; accept_final ; ... ; ret`. -/
def andProgOf (ec : List Word) (preds : List (Regs → Bool × Regs)) : Prog :=
  { instructions :=
      [ .pfx .call true false 0 0, .off 1
      , .pfx .accept false false 1 0
      , .pfx .choice true false 0 0, .off (2 + (ec.length : Int)) ]
      ++ ec ++
      [ .pfx .commit true false 1 0, .off 1
      , .pfx .fail false false 0 0
      , .pfx .ret false false 0 0 ]
    predicates := preds }

/-- `start(rule(!!e))` for an inline expression block `ec`:
`operator!` compiles to `choice (1+L(x)) ; x ; fail 1`, applied twice
(`L(!e) = L(e) + 3`), wrapped by `start` as above. -/
def nnProgOf (ec : List Word) (preds : List (Regs → Bool × Regs)) : Prog :=
  { instructions :=
      [ .pfx .call true false 0 0, .off 1
      , .pfx .accept false false 1 0
      , .pfx .choice true false 0 0, .off ((ec.length : Int) + 4)
      , .pfx .choice true false 0 0, .off ((ec.length : Int) + 1) ]
      ++ ec ++
      [ .pfx .fail false false 0 1
      , .pfx .fail false false 0 1
      , .pfx .ret false false 0 0 ]
    predicates := preds }

/-- The context frames below the `&e` expression region: the lookahead's
own backtrack frame (target: the trailing `fail` at `L+7`) above the
start rule's call frame. -/
def lowAnd (L : Int) : List Frame :=
  [.backtrack 0 1 1 0 (L + 7), .call 2]

/-- The context frames below the `!!e` expression region: the inner
choice's backtrack frame (target: the outer `fail` at `L+8`), the outer
choice's (target: the `ret` at `L+9`), and the start rule's call
frame. -/
def lowNn (L : Int) : List Frame :=
  [.backtrack 0 1 1 0 (L + 8), .backtrack 0 1 1 0 (L + 9), .call 2]

/-- The lockstep relation between a `start(rule(&e))` machine and the
corresponding `start(rule(!!e))` machine while execution is inside the
shared expression region, with the region frames `F` explicit: all
scalar state agrees, the program counter is shifted by 2 (the extra
`choice` prefix words), and the stacks carry the same region frames
(addresses shifted) above the two fixed context stacks.  The flags
pinned to `false`/`0` are those that in-region execution cannot change
once `accept` instructions are excluded. -/
def SimF (L : Int) (F : List Frame) (s1 s2 : Machine) : Prop :=
  s1.stack = F ++ lowAnd L
  ∧ s2 = { s1 with pc := s1.pc + 2, stack := F.map (shiftFrame 2) ++ lowNn L }
  ∧ s1.result = false ∧ s1.done = false ∧ s1.cutDeferred = false ∧ s1.cutFrame = 0

/-- `SimF` with the region frames existentially quantified. -/
def Sim (L : Int) (s1 s2 : Machine) : Prop :=
  ∃ F, SimF L F s1 s2

/-- Shift the program addresses stored in a left-recursion memo by `d`. -/
def shiftMemo (d : Int) (m : LrMemo) : LrMemo :=
  { m with pcr := m.pcr + d, pca := m.pca + d }

/-- The response-log truncation performed after the unwinding loop of the
failure path (`pop_responses_after(rc)` at the end of `failure:`). -/
def postFail (s : Machine) : Machine :=
  { s with responses := Machine.popResponsesAfter s.rc s.responses }

/-- The paired exit of the two lookahead machines through the failure
path: both machines have unwound through all region frames into their
fixed context stacks with the same pending fail count. -/
def CrossFail (L : Int) (t1 t2 : Machine) : Prop :=
  ∃ v1, 0 < v1.fc ∧ v1.stack = lowAnd L ∧ v1.result = false ∧ v1.done = false
    ∧ v1.cutDeferred = false ∧ v1.cutFrame = 0
    ∧ t1 = postFail (Machine.unwind v1)
    ∧ t2 = postFail (Machine.unwind { v1 with pc := v1.pc + 2, stack := lowNn L })

/-- The inline code of the expression `e` = match of the single byte
0x61: one `match` prefix with the `str` operand flag and one inline
string word. -/
def ecC6 : List Word := [.pfx .matchOp false true 0 0, .strw 97 0 0 0]

/-- The `&e` machine of `andProgOf ecC6 []` at the region entry on input
"a". -/
def sC6and : Machine := { initMachine [97] with pc := 5, stack := lowAnd 2 }

/-- The `!!e` machine of `nnProgOf ecC6 []` at the region entry on input
"a". -/
def sC6nn : Machine := { initMachine [97] with pc := 7, stack := lowNn 2 }

/-- The inline code of the expression `cut`: the terminal at lug.hpp:548
encodes a bare `accept` with altcode 0. -/
def ecCut : List Word := [.pfx .accept false false 0 0]

/-- A semantic predicate that succeeds exactly when the program counter
it is shown equals 8.  `parser_registers` exposes `pc` to predicates, so
a predicate can observe the two-word address shift between the `&e` and
`!!e` programs. -/
def predPc : Regs → Bool × Regs := fun r => (decide (r.pc = 8), r)

/-- The inline code of a one-predicate expression: a `predicate`
instruction with table index 0. -/
def ecPred : List Word := [.pfx .predicate false false 0 0]

/-!
## Theorems

General lemmas about the machine combinators, followed by one theorem
(plus counterexample and witness where applicable) per claim.
-/

section Theorems

open Machine

theorem maybeDeferredAccept_stack (s : Machine) :
    (maybeDeferredAccept s).stack = s.stack := by
  unfold maybeDeferredAccept acceptCommit
  split <;> rfl

theorem maybeDeferredAccept_pc (s : Machine) :
    (maybeDeferredAccept s).pc = s.pc := by
  unfold maybeDeferredAccept acceptCommit
  split <;> rfl

theorem run_succ (P : Prog) (ext : UnicodeExt) (s t : Machine) (n : Nat)
    (h : s.done = false) (hstep : step P ext s = .ok t) :
    run P ext (n + 1) s = run P ext n t := by
  rw [run, if_neg (by simp [h]), hstep]

/-- Claim C7: executing `commit` with `altcode::commit_back` restores
exactly the subject registers `(ir, cr, lr)` from the top backtrack frame
and pops that frame; `rc`, `fc`, the response log and every other field
are unchanged except the program counter and the clamped cut frame, as
the explicit result state shows. -/
theorem commit_back_restores_subject_only (P : Prog) (ext : UnicodeExt) (s : Machine)
    (d : Decoded) (pc' : Int) (bir bcr blr brc : Nat) (bpc : Int) (rest : List Frame)
    (hdec : decode P.instructions s.pc = some (d, pc'))
    (hop : d.op = .commit) (halt : d.alt = 1)
    (hstk : s.stack = .backtrack bir bcr blr brc bpc :: rest) :
    step P ext s = .ok { s with
      ir := bir, cr := bcr, lr := blr, pc := pc' + d.off
      stack := rest, cutFrame := min s.cutFrame rest.length } := by
  obtain ⟨op, alt, imm, off, str⟩ := d
  simp only at hop halt
  subst hop halt
  simp only [step, hdec, hstk, popTop, List.tail_cons]

/-- Witness for claim C7 at a concrete machine: `commit_back` over the
frame `backtrack 7 8 9 0 11` restores `(7, 8, 9)` and pops it. -/
theorem commit_back_restores_subject_only_witness :
    step commitBackProg asciiExt btState = .ok { btState with
      ir := 7, cr := 8, lr := 9, pc := 7, stack := [], cutFrame := min btState.cutFrame 0 } :=
  commit_back_restores_subject_only commitBackProg asciiExt btState
    ⟨.commit, 1, 0, 5, []⟩ 2 7 8 9 0 11 [] rfl rfl rfl rfl

/-- Claim C1 (amended): in the `match_class` instruction the polarity is
inverted in all four altcode branches uniformly, not in exactly one: for
every altcode, when the Unicode query answers `true` the instruction
enters the failure path, and when it answers `false` the instruction
advances `ir` by the rune size and `cr` by 1. -/
theorem matchClass_all_branches_inverted (P : Prog) (ext : UnicodeExt) (s : Machine)
    (d : Decoded) (pc' : Int) (b : Bool)
    (hdec : decode P.instructions s.pc = some (d, pc'))
    (hop : d.op = .matchClass)
    (hav : s.available 1 = true)
    (hq : classQuery ext d.alt d.imm d.str (ext.decodeRune (s.input.drop s.ir)).1 = some b) :
    step P ext s = .ok (if b then Machine.failWith { s with pc := pc' }
      else { s with pc := pc', ir := s.ir + (ext.decodeRune (s.input.drop s.ir)).2, cr := s.cr + 1 }) := by
  obtain ⟨op, alt, imm, off, str⟩ := d
  simp only at hop
  subst hop
  simp only [step, Machine.available] at hav ⊢
  simp only [hdec, hav, hq]
  cases b <;> simp

/-- Witness for claim C1: a concrete `match_class` with a matching script
query enters the failure path. -/
theorem matchClass_all_branches_inverted_witness :
    step (sctypeProg 0) asciiExt (initMachine [97]) =
      .ok (Machine.failWith { initMachine [97] with pc := 1 }) := by
  have h := matchClass_all_branches_inverted (sctypeProg 0) asciiExt (initMachine [97])
    ⟨.matchClass, 3, 0, 0, []⟩ 1 true rfl rfl rfl rfl
  simpa using h

/-- Counterexample for claim C1 as stated: two distinct altcode branches
of `match_class` — `match_class_sctype` (altcode 3) and the default
flags branch (altcode 0) — both fail exactly when the query matches and
advance by one rune when it does not, so the inverted polarity does not
occur in exactly one branch. -/
theorem matchClass_two_branches_inverted_cex :
    ((step (sctypeProg 0) asciiExt (initMachine [97])).map (fun t => (t.done, t.result, t.ir)) = .ok (true, false, 0)
      ∧ (step (sctypeProg 5) asciiExt (initMachine [97])).map (fun t => (t.done, t.result, t.ir)) = .ok (false, false, 1)
      ∧ classQuery asciiExt 3 0 [] 97 = some true)
    ∧ ((step ctypeProg markExt (initMachine [97])).map (fun t => (t.done, t.result, t.ir)) = .ok (true, false, 0)
      ∧ (step ctypeProg asciiExt (initMachine [97])).map (fun t => (t.done, t.result, t.ir)) = .ok (false, false, 1)
      ∧ classQuery markExt 0 0 [] 97 = some true) :=
  ⟨⟨rfl, rfl, rfl⟩, ⟨rfl, rfl, rfl⟩⟩

/-- Claim C3 (amended): an `accept` with `altcode::accept_final`
terminates the parse immediately with success only when no capture and
no left-recursion frames are open; with any such frame open the cut is
deferred (`cut_deferred_` is set) and the loop continues with `done`
and `result` untouched. -/
theorem accept_final_defers_with_open_frames (P : Prog) (ext : UnicodeExt) (s : Machine)
    (d : Decoded) (pc' : Int)
    (hdec : decode P.instructions s.pc = some (d, pc'))
    (hop : d.op = .accept) (halt : d.alt = 1) :
    (hasCaptureFrame s.stack = false → hasLrFrame s.stack = false →
      step P ext s = .ok { (Machine.acceptCommit { s with pc := pc', cutDeferred := false }) with
        result := true, done := true })
    ∧ (hasCaptureFrame s.stack = true ∨ hasLrFrame s.stack = true →
      step P ext s = .ok { s with pc := pc', cutDeferred := true }) := by
  obtain ⟨op, alt, imm, off, str⟩ := d
  simp only at hop halt
  subst hop halt
  constructor
  · intro hc hl
    simp only [step, hdec, hc, hl, Bool.or_self]
    rfl
  · intro h
    rcases h with h | h <;> simp only [step, hdec, h] <;> simp

/-- Counterexample for claim C3 as stated: at an `accept_final` with one
capture frame still open the parse does not terminate — `done` and
`result` stay false and the cut is merely deferred. -/
theorem accept_final_open_capture_cex :
    (step acceptFinalProg asciiExt openCaptureState).map
      (fun t => (t.done, t.result, t.cutDeferred, t.pc)) = .ok (false, false, true, 1) := rfl

/-- Witness for claim C3 applying the deferred branch at a concrete
machine with an open capture frame. -/
theorem accept_final_defers_witness :
    step acceptFinalProg asciiExt openCaptureState =
      .ok { openCaptureState with pc := 1, cutDeferred := true } :=
  (accept_final_defers_with_open_frames acceptFinalProg asciiExt openCaptureState
    ⟨.accept, 1, 0, 0, []⟩ 1 rfl rfl rfl).2 (Or.inl rfl)

/-- Claim C9: `commit`, `ret` and `end_capture` on an empty stack or on a
top frame of the wrong kind raise no exception and pop nothing: they
enter the ordinary failure path `failWith` on the undisturbed state,
exactly like a `match` instruction whose comparison fails (last
conjunct). -/
theorem mismatched_frame_enters_failure_path (P : Prog) (ext : UnicodeExt) (s : Machine)
    (d : Decoded) (pc' : Int)
    (hdec : decode P.instructions s.pc = some (d, pc')) :
    (d.op = .commit → topIsBacktrack s.stack = false →
      step P ext s = .ok (Machine.failWith { s with pc := pc' }))
    ∧ (d.op = .ret → topIsCallLike s.stack = false →
      step P ext s = .ok (Machine.failWith { s with pc := pc' }))
    ∧ (d.op = .endCapture → topIsCapture s.stack = false →
      step P ext s = .ok (Machine.failWith { s with pc := pc' }))
    ∧ (d.op = .matchOp → d.str.isEmpty = false →
      (s.available d.str.length && substrEq s.input s.ir d.str) = false →
      step P ext s = .ok (Machine.failWith { s with pc := pc' })) := by
  obtain ⟨op, alt, imm, off, str⟩ := d
  refine ⟨?_, ?_, ?_, ?_⟩
  · intro hop htop
    simp only at hop; subst hop
    simp only [step, hdec]
    match hs : s.stack with
    | [] => rfl
    | .backtrack a b c dd e :: rest => rw [hs] at htop; simp [topIsBacktrack] at htop
    | .call _ :: rest => rfl
    | .capture _ :: rest => rfl
    | .lrcall _ :: rest => rfl
  · intro hop htop
    simp only at hop; subst hop
    simp only [step, hdec]
    match hs : s.stack with
    | [] => rfl
    | .backtrack a b c dd e :: rest => rfl
    | .call _ :: rest => rw [hs] at htop; simp [topIsCallLike] at htop
    | .capture _ :: rest => rfl
    | .lrcall _ :: rest => rw [hs] at htop; simp [topIsCallLike] at htop
  · intro hop htop
    simp only at hop; subst hop
    simp only [step, hdec]
    match hs : s.stack with
    | [] => rfl
    | .backtrack a b c dd e :: rest => rfl
    | .call _ :: rest => rfl
    | .capture _ :: rest => rw [hs] at htop; simp [topIsCapture] at htop
    | .lrcall _ :: rest => rfl
  · intro hop hne hfail
    simp only at hop; subst hop
    simp only [step, Machine.available] at hfail ⊢
    simp only [hdec, hne, hfail]
    simp [hne]

/-- Witness for claim C9: a `commit` on an empty stack enters the
failure path. -/
theorem mismatched_frame_enters_failure_path_witness :
    step commitBackProg asciiExt (initMachine []) =
      .ok (Machine.failWith { initMachine [] with pc := 2 }) :=
  (mismatched_frame_enters_failure_path commitBackProg asciiExt (initMachine [])
    ⟨.commit, 1, 0, 5, []⟩ 2 rfl).1 rfl rfl

/-- The two-state loop of the `start(rule(*eps))` run: `eps` matches
without consuming and `commit_partial` jumps back. -/
theorem starEps_stepA : step starEpsProg asciiExt starEpsA = .ok starEpsB := rfl

/-- The second half of the loop. -/
theorem starEps_stepB : step starEpsProg asciiExt starEpsB = .ok starEpsA := rfl

theorem starEps_cycle_run :
    ∀ n s, s = starEpsA ∨ s = starEpsB → run starEpsProg asciiExt n s = .ok none := by
  intro n
  induction n with
  | zero => intro s _; rfl
  | succ n ih =>
    rintro s (rfl | rfl)
    · rw [run_succ _ _ _ _ _ rfl starEps_stepA]
      exact ih _ (Or.inr rfl)
    · rw [run_succ _ _ _ _ _ rfl starEps_stepB]
      exact ih _ (Or.inl rfl)

theorem starEps_run_init :
    ∀ fuel, run starEpsProg asciiExt fuel (initMachine []) = .ok none := by
  intro fuel
  match fuel with
  | 0 => rfl
  | 1 => rfl
  | n + 2 =>
    rw [run_succ _ _ _ _ _ rfl (show step starEpsProg asciiExt (initMachine []) =
        .ok { initMachine [] with pc := 3, stack := [.call 2] } from rfl)]
    rw [run_succ _ _ _ _ _ rfl (show step starEpsProg asciiExt
        { initMachine [] with pc := 3, stack := [.call 2] } = .ok starEpsA from rfl)]
    exact starEps_cycle_run n _ (Or.inl rfl)

/-- Claim C2 (amended): `parser::parse` does not terminate for every
grammar produced by `start`: the grammar `start(rule(*eps))` on empty
input exhausts every step budget (first conjunct).  The left-recursion
grow loop itself does progress: a `ret` on a left-recursion frame whose
current position strictly exceeds the memo answer continues growing with
the strictly advanced answer `(ir, cr, lr)`, and otherwise ends the grow
loop by popping the frame and returning to the callsite (second
conjunct). -/
theorem starEps_parse_diverges_and_lr_grow_advances :
    (∀ fuel, parse starEpsProg asciiExt false fuel [] = .ok none)
    ∧ (∀ (P : Prog) (ext : UnicodeExt) (s : Machine) (d : Decoded) (pc' : Int)
        (m : LrMemo) (rest : List Frame),
        decode P.instructions s.pc = some (d, pc') → d.op = .ret →
        s.stack = .lrcall m :: rest →
        (∀ a, m.sa = some a → a.ir < s.ir →
          ∃ t, step P ext s = .ok t
            ∧ t.stack = .lrcall { m with
                sa := some ⟨s.ir, s.cr, s.lr⟩
                responses := (Machine.dropResponsesAfter m.rcr s.responses).1 } :: rest
            ∧ t.pc = m.pca ∧ t.ir = m.sr.ir)
        ∧ (∀ a, m.sa = some a → s.ir ≤ a.ir →
          ∃ t, step P ext s = .ok t ∧ t.stack = rest ∧ t.pc = m.pcr)) := by
  constructor
  · intro fuel
    unfold parse
    rw [if_neg (by decide), if_neg (by decide), starEps_run_init fuel]
  · intro P ext s d pc' m rest hdec hop hstk
    obtain ⟨op, alt, imm, off, str⟩ := d
    simp only at hop
    subst hop
    constructor
    · intro a hsa hlt
      have hstep : step P ext s = .ok { s with
          stack := .lrcall { m with
            sa := some ⟨s.ir, s.cr, s.lr⟩
            responses := (Machine.dropResponsesAfter m.rcr s.responses).1 } :: rest
          responses := (Machine.dropResponsesAfter m.rcr s.responses).2
          ir := m.sr.ir, cr := m.sr.cr, lr := m.sr.lr
          rc := m.rcr, pc := m.pca } := by
        simp only [step, hdec, hstk]
        rw [if_pos (Or.inr (by simp [hsa]; omega))]
      exact ⟨_, hstep, by simp, rfl, rfl⟩
    · intro a hsa hle
      have hstep : step P ext s = .ok (Machine.maybeDeferredAccept (Machine.popTop { s with
          ir := a.ir, cr := a.cr, lr := a.lr, pc := m.pcr
          rc := (Machine.restoreResponsesAfter m.rcr s.responses m.responses).length
          responses := Machine.restoreResponsesAfter m.rcr s.responses m.responses })) := by
        simp only [step, hdec, hstk]
        rw [if_neg (by simp [hsa]; omega)]
        simp only [hsa]
      refine ⟨_, hstep, ?_, ?_⟩
      · rw [maybeDeferredAccept_stack]
        simp [Machine.popTop, hstk]
      · rw [maybeDeferredAccept_pc]
        simp [Machine.popTop]

/-- Counterexample for claim C2 as stated: the `start(rule(*eps))` run
on empty input reaches, after two steps, a configuration `starEpsA` from
which the deterministic step function cycles with period two without
ever setting `done` — the machine never terminates. -/
theorem starEps_loop_cex :
    stepN starEpsProg asciiExt 2 (initMachine []) = .ok starEpsA
    ∧ step starEpsProg asciiExt starEpsA = .ok starEpsB
    ∧ step starEpsProg asciiExt starEpsB = .ok starEpsA
    ∧ starEpsA.done = false ∧ starEpsB.done = false :=
  ⟨rfl, rfl, rfl, rfl, rfl⟩

/-- Witness for claim C2 applying the grow branch at a concrete `ret`
with an advanced position. -/
theorem lr_grow_advances_witness :
    ∃ t, step retProg asciiExt growState = .ok t
      ∧ t.stack = .lrcall { growMemo with
          sa := some ⟨1, 1, 1⟩
          responses := (Machine.dropResponsesAfter growMemo.rcr growState.responses).1 } :: []
      ∧ t.pc = growMemo.pca ∧ t.ir = growMemo.sr.ir :=
  (starEps_parse_diverges_and_lr_grow_advances.2 retProg asciiExt growState
    ⟨.ret, 0, 0, 0, []⟩ 1 growMemo [] rfl rfl rfl).1 ⟨0, 1, 1⟩ rfl (by decide)

theorem step_error (P : Prog) (ext : UnicodeExt) (s : Machine) (e : VmErr)
    (h : step P ext s = .error e) : e = .badOpcode := by
  unfold step at h
  repeat' (first | (split at h) | (dsimp only at h))
  all_goals simp_all

theorem run_error (P : Prog) (ext : UnicodeExt) :
    ∀ (fuel : Nat) (s : Machine) (e : VmErr),
      run P ext fuel s = .error e → e = .badOpcode := by
  intro fuel
  induction fuel with
  | zero => intro s e h; simp [run] at h
  | succ n ih =>
    intro s e h
    rw [run] at h
    by_cases hd : s.done = true
    · simp [hd] at h
    · simp only [if_neg hd] at h
      cases hstep : step P ext s with
      | error err =>
        rw [hstep] at h
        cases h
        exact step_error P ext s _ hstep
      | ok t =>
        rw [hstep] at h
        exact ih _ _ h

/-- Claim C4 (amended): a call to `parser::parse` raises only the
reentrancy errors, `bad_grammar` (on an empty grammar) or `bad_opcode`;
in particular an input that merely fails to match is never an error (the
run either finishes with a boolean or exhausts its budget). -/
theorem parse_error_kinds (P : Prog) (ext : UnicodeExt) (parsing : Bool) (fuel : Nat)
    (input : List Nat) (e : VmErr) (h : parse P ext parsing fuel input = .error e) :
    e = .reentrantParse ∨ e = .reentrantRead ∨ e = .badGrammar ∨ e = .badOpcode := by
  unfold parse at h
  split at h
  · cases h; exact Or.inl rfl
  · split at h
    · cases h; exact Or.inr (Or.inr (Or.inl rfl))
    · cases hrun : run P ext fuel (initMachine input) with
      | error err =>
        rw [hrun] at h
        cases h
        exact Or.inr (Or.inr (Or.inr (run_error P ext fuel (initMachine input) _ hrun)))
      | ok r =>
        rw [hrun] at h
        cases r with
        | none => cases h
        | some t => cases h

/-- Counterexample for claim C4 as stated: parsing with the empty
grammar raises `bad_grammar`, which is none of the three error kinds the
claim allows. -/
theorem parse_empty_grammar_raises_cex :
    parse emptyProg asciiExt false 10 [] = .error .badGrammar
    ∧ (VmErr.badGrammar ≠ .reentrantParse ∧ VmErr.badGrammar ≠ .reentrantRead
        ∧ VmErr.badGrammar ≠ .badOpcode) :=
  ⟨rfl, by decide⟩

/-- Witness for claim C4 at the concrete empty-grammar parse. -/
theorem parse_error_kinds_witness :
    VmErr.badGrammar = .reentrantParse ∨ VmErr.badGrammar = .reentrantRead
      ∨ VmErr.badGrammar = .badGrammar ∨ VmErr.badGrammar = .badOpcode :=
  parse_error_kinds emptyProg asciiExt false 10 [] .badGrammar rfl

theorem max_chain {a b c : Nat} (h2 : c = b ∨ c = 0) (h1 : b = a ∨ b = 0) :
    c = a ∨ c = 0 := by
  rcases h1 with h1 | h1 <;> rcases h2 with h2 | h2 <;> simp_all

theorem updMax_ge (s : Machine) : s.maxInput.ir ≤ (updMax s).maxInput.ir := by
  unfold updMax
  split <;> simp <;> omega

theorem maybeDA_max (s : Machine) :
    (maybeDeferredAccept s).maxInput.ir = s.maxInput.ir
    ∨ (maybeDeferredAccept s).maxInput.ir = 0 := by
  unfold maybeDeferredAccept acceptCommit
  split <;> simp

theorem unwindAux_max : ∀ (n : Nat) (s : Machine),
    (unwindAux n s).maxInput.ir = s.maxInput.ir ∨ (unwindAux n s).maxInput.ir = 0 := by
  intro n
  induction n with
  | zero => intro s; unfold unwindAux; split <;> simp
  | succ n ih =>
    intro s
    rw [unwindAux]
    repeat' split
    all_goals first
      | (simp; done)
      | exact ih _
      | exact max_chain (ih _) (maybeDA_max _)

theorem failWith_max (s : Machine) :
    (failWith s).maxInput.ir = (updMax s).maxInput.ir ∨ (failWith s).maxInput.ir = 0 := by
  unfold failWith unwind
  exact unwindAux_max _ _

theorem failWith_max_ge' (s X : Machine) (hmax : X.maxInput = s.maxInput) :
    s.maxInput.ir ≤ (failWith X).maxInput.ir ∨ (failWith X).maxInput.ir = 0 := by
  rcases failWith_max X with h | h
  · exact Or.inl (by rw [h]; exact hmax ▸ updMax_ge X)
  · exact Or.inr h

theorem updMax_ge' (s X : Machine) (hmax : X.maxInput = s.maxInput) :
    s.maxInput.ir ≤ (updMax X).maxInput.ir := hmax ▸ updMax_ge X

theorem mda_max_ge (s X : Machine) (hmax : X.maxInput = s.maxInput) :
    s.maxInput.ir ≤ (maybeDeferredAccept X).maxInput.ir
    ∨ (maybeDeferredAccept X).maxInput.ir = 0 := by
  rcases maybeDA_max X with h | h
  · exact Or.inl (le_of_eq (by rw [h, hmax]))
  · exact Or.inr h

theorem failWith_max_ge2 (s X Y : Machine) (h2 : Y.maxInput = (updMax X).maxInput)
    (h1 : X.maxInput = s.maxInput) :
    s.maxInput.ir ≤ (failWith Y).maxInput.ir ∨ (failWith Y).maxInput.ir = 0 := by
  rcases failWith_max Y with h | h
  · refine Or.inl ?_
    rw [h]
    calc s.maxInput.ir ≤ (updMax X).maxInput.ir := updMax_ge' s X h1
    _ = Y.maxInput.ir := by rw [h2]
    _ ≤ (updMax Y).maxInput.ir := updMax_ge Y
  · exact Or.inr h

theorem mda_max_ir (X : Machine) :
    ((maybeDeferredAccept X).maxInput.ir = X.maxInput.ir ∧ (maybeDeferredAccept X).ir = X.ir)
    ∨ ((maybeDeferredAccept X).maxInput.ir = 0 ∧ (maybeDeferredAccept X).ir = 0) := by
  unfold maybeDeferredAccept acceptCommit
  split <;> simp

theorem updMax_of_zero (Z : Machine) (h1 : Z.maxInput.ir = 0) (h2 : Z.ir = 0) :
    (updMax Z).maxInput.ir = 0 := by
  unfold updMax
  split <;> simp_all

theorem failWith_mda_ge (s X : Machine) (hmax : X.maxInput = s.maxInput) :
    s.maxInput.ir ≤ (failWith (maybeDeferredAccept X)).maxInput.ir
    ∨ (failWith (maybeDeferredAccept X)).maxInput.ir = 0 := by
  rcases mda_max_ir X with ⟨h1, _⟩ | ⟨h1, h2⟩
  · rcases failWith_max (maybeDeferredAccept X) with h | h
    · refine Or.inl ?_
      rw [h]
      calc s.maxInput.ir = (maybeDeferredAccept X).maxInput.ir := by rw [h1, hmax]
      _ ≤ (updMax (maybeDeferredAccept X)).maxInput.ir := updMax_ge _
    · exact Or.inr h
  · rcases failWith_max (maybeDeferredAccept X) with h | h
    · exact Or.inr (h.trans (updMax_of_zero _ h1 h2))
    · exact Or.inr h

set_option maxHeartbeats 1000000 in
/-- Claim C8 (amended): within a single parse, one VM step never
decreases the recorded furthest byte index `max_input_.ir` except by
resetting it to zero at a committed cut (`parser::accept` erases the
consumed prefix and zeroes the record).  The reported (column, line)
pair, by contrast, is not monotone — see the counterexample. -/
theorem step_max_monotone_or_cut_reset (P : Prog) (ext : UnicodeExt) (s t : Machine)
    (h : step P ext s = .ok t) :
    s.maxInput.ir ≤ t.maxInput.ir ∨ t.maxInput.ir = 0 := by
  unfold step at h
  repeat' (first | (split at h) | (dsimp only at h))
  all_goals (try cases h)
  all_goals first
    | (left; exact le_rfl)
    | (apply failWith_max_ge' <;> rfl)
    | (simp [acceptCommit]; done)
    | (apply mda_max_ge <;> rfl)
    | (left; apply updMax_ge' <;> rfl)
    | (apply failWith_max_ge2 <;> rfl)
    | (apply failWith_mda_ge <;> rfl)

/-- Counterexample for claim C8 as stated: in the
`start(rule(("a\n" > ilr > "bX") | ("a\nb" > "Q")))` run on input
`"a\nbb"`, the recorded furthest position after five steps is byte 2 at
(column 1, line 2), but after seven steps it is byte 3 at (column 4,
line 1) — the reported line moved backwards, because the second
alternative matches the same newline byte without executing `newline`. -/
theorem max_input_position_regresses_cex :
    (stepN posRegressProg asciiExt 5 (initMachine [97, 10, 98, 98])).map (fun t => t.maxInput)
      = .ok ⟨2, 1, 2⟩
    ∧ (stepN posRegressProg asciiExt 7 (initMachine [97, 10, 98, 98])).map (fun t => t.maxInput)
      = .ok ⟨3, 4, 1⟩
    ∧ (1 : Nat) < 2 :=
  ⟨rfl, rfl, by decide⟩

/-- Witness for claim C8 at the concrete failing `match_class` step. -/
theorem step_max_monotone_witness :
    (initMachine [97]).maxInput.ir ≤
        (Machine.failWith { initMachine [97] with pc := 1 }).maxInput.ir
    ∨ (Machine.failWith { initMachine [97] with pc := 1 }).maxInput.ir = 0 :=
  step_max_monotone_or_cut_reset (sctypeProg 0) asciiExt (initMachine [97]) _ rfl

/-- Claim C10: whenever a cut commits — an `accept` executing with no
open capture or left-recursion frames (first conjunct), or a deferred
cut firing when the last such frame is popped (second conjunct) — the
parser erases the consumed input prefix and zeroes `ir`, `rc` and
`max_input_.ir`, while `cr`, `lr` and the recorded furthest column and
line are preserved. -/
theorem cut_commit_resets :
    (∀ (P : Prog) (ext : UnicodeExt) (s : Machine) (d : Decoded) (pc' : Int),
      decode P.instructions s.pc = some (d, pc') → d.op = .accept →
      hasCaptureFrame s.stack = false → hasLrFrame s.stack = false →
      ∃ t, step P ext s = .ok t ∧ t.input = s.input.drop s.ir ∧ t.ir = 0 ∧ t.rc = 0
        ∧ t.maxInput.ir = 0 ∧ t.maxInput.cr = s.maxInput.cr ∧ t.maxInput.lr = s.maxInput.lr
        ∧ t.cr = s.cr ∧ t.lr = s.lr ∧ t.responses = [] ∧ t.cutFrame = s.stack.length)
    ∧ (∀ s : Machine, s.cutDeferred = true →
      hasCaptureFrame s.stack = false → hasLrFrame s.stack = false →
      maybeDeferredAccept s = acceptCommit s
        ∧ (acceptCommit s).input = s.input.drop s.ir ∧ (acceptCommit s).ir = 0
        ∧ (acceptCommit s).rc = 0 ∧ (acceptCommit s).maxInput.ir = 0
        ∧ (acceptCommit s).cr = s.cr ∧ (acceptCommit s).lr = s.lr) := by
  constructor
  · intro P ext s d pc' hdec hop hc hl
    obtain ⟨op, alt, imm, off, str⟩ := d
    simp only at hop
    subst hop
    by_cases halt : alt = 1
    · subst halt
      have hstep : step P ext s = .ok { (acceptCommit { s with pc := pc', cutDeferred := false }) with
          result := true, done := true } := by
        simp only [step, hdec, hc, hl, Bool.or_self]
        rfl
      exact ⟨_, hstep, by simp [acceptCommit], by simp [acceptCommit], by simp [acceptCommit],
        by simp [acceptCommit], by simp [acceptCommit], by simp [acceptCommit],
        by simp [acceptCommit], by simp [acceptCommit], by simp [acceptCommit],
        by simp [acceptCommit]⟩
    · have hstep : step P ext s = .ok (acceptCommit { s with pc := pc', cutDeferred := false }) := by
        simp only [step, hdec, hc, hl, Bool.or_self]
        rw [if_neg (show ¬ (false = true) by decide), if_neg halt]
      exact ⟨_, hstep, by simp [acceptCommit], by simp [acceptCommit], by simp [acceptCommit],
        by simp [acceptCommit], by simp [acceptCommit], by simp [acceptCommit],
        by simp [acceptCommit], by simp [acceptCommit], by simp [acceptCommit],
        by simp [acceptCommit]⟩
  · intro s hcd hc hl
    refine ⟨?_, by simp [acceptCommit], by simp [acceptCommit], by simp [acceptCommit],
      by simp [acceptCommit], by simp [acceptCommit], by simp [acceptCommit]⟩
    unfold maybeDeferredAccept
    rw [if_pos (by simp [hcd, hc, hl])]

/-- Witness for claim C10 at a concrete final `accept` with empty
stacks. -/
theorem cut_commit_resets_witness :
    ∃ t, step acceptFinalProg asciiExt (initMachine [97]) = .ok t
      ∧ t.input = (initMachine [97]).input.drop (initMachine [97]).ir
      ∧ t.ir = 0 ∧ t.rc = 0 ∧ t.maxInput.ir = 0
      ∧ t.maxInput.cr = (initMachine [97]).maxInput.cr
      ∧ t.maxInput.lr = (initMachine [97]).maxInput.lr
      ∧ t.cr = (initMachine [97]).cr ∧ t.lr = (initMachine [97]).lr
      ∧ t.responses = [] ∧ t.cutFrame = (initMachine [97]).stack.length :=
  cut_commit_resets.1 acceptFinalProg asciiExt (initMachine [97])
    ⟨.accept, 1, 0, 0, []⟩ 1 rfl rfl rfl rfl


theorem mda_nop (s : Machine) (h : s.cutDeferred = false) : maybeDeferredAccept s = s := by
  unfold maybeDeferredAccept
  rw [if_neg]
  simp [h]

theorem unwind_low1_one (L : Int) (v : Machine) (hst : v.stack = lowAnd L) (hcf : v.cutFrame = 0)
    (hfc : v.fc = 1) :
    unwind v = { v with
      ir := 0, cr := 1, lr := 1, rc := 0, pc := L + 7, fc := 0
      stack := [.call 2], cutFrame := 0 } := by
  unfold unwind
  rw [hst]
  simp [unwindAux, lowAnd, hst, hcf, hfc]

theorem unwind_low1_ge2 (L : Int) (v : Machine) (hst : v.stack = lowAnd L) (hcf : v.cutFrame = 0)
    (hfc : 2 ≤ v.fc) :
    (unwind v).done = true ∧ (unwind v).stack = [] := by
  unfold unwind
  rw [hst]
  have h1 : v.fc ≠ 0 := by omega
  have h2 : v.fc - 1 ≠ 0 := by omega
  simp [unwindAux, lowAnd, hst, hcf, h1, h2]

theorem unwind_low2_one (L : Int) (v : Machine) (hst : v.stack = lowNn L) (hcf : v.cutFrame = 0)
    (hfc : v.fc = 1) :
    unwind v = { v with
      ir := 0, cr := 1, lr := 1, rc := 0, pc := L + 8, fc := 0
      stack := [.backtrack 0 1 1 0 (L + 9), .call 2], cutFrame := 0 } := by
  unfold unwind
  rw [hst]
  simp [unwindAux, lowNn, hst, hcf, hfc]

theorem unwind_eq_of_stack (s : Machine) (f : Frame) (rest : List Frame)
    (hst : s.stack = f :: rest) : unwind s = unwindAux (rest.length + 1) s := by
  unfold unwind
  rw [hst]
  rfl

theorem unwind_pair (L : Int) : ∀ (F : List Frame) (s1 s2 : Machine), SimF L F s1 s2 →
    (∃ F' t1 t2, unwind s1 = t1 ∧ unwind s2 = t2 ∧ SimF L F' t1 t2 ∧ t1.fc = 0)
    ∨ (∃ v1, 0 < v1.fc ∧ unwind s1 = unwind v1 ∧ v1.stack = lowAnd L
        ∧ unwind s2 = unwind { v1 with pc := v1.pc + 2, stack := lowNn L }
        ∧ v1.result = false ∧ v1.done = false ∧ v1.cutDeferred = false ∧ v1.cutFrame = 0) := by
  intro F
  induction F with
  | nil =>
    intro s1 s2 hS
    obtain ⟨hst1, hs2, hres, hdone, hcd, hcf⟩ := hS
    by_cases hfc : s1.fc = 0
    · left
      refine ⟨[], s1, s2, ?_, ?_, ⟨hst1, hs2, hres, hdone, hcd, hcf⟩, hfc⟩
      · unfold unwind
        rw [hst1]
        show unwindAux 2 s1 = s1
        rw [unwindAux, if_pos hfc]
      · unfold unwind
        rw [hs2]
        show unwindAux 3 _ = _
        rw [unwindAux, if_pos (by simpa using hfc)]
    · right
      refine ⟨s1, by omega, rfl, by simpa using hst1, ?_, hres, hdone, hcd, hcf⟩
      rw [hs2]
      congr 1
  | cons f F ih =>
    intro s1 s2 hS
    obtain ⟨hst1, hs2, hres, hdone, hcd, hcf⟩ := hS
    by_cases hfc : s1.fc = 0
    · left
      refine ⟨f :: F, s1, s2, ?_, ?_, ⟨hst1, hs2, hres, hdone, hcd, hcf⟩, hfc⟩
      · rw [unwind_eq_of_stack s1 f (F ++ lowAnd L) hst1, unwindAux, if_pos hfc]
      · rw [unwind_eq_of_stack s2 (shiftFrame 2 f) (F.map (shiftFrame 2) ++ lowNn L)
          (by rw [hs2]; simp), unwindAux, if_pos (by rw [hs2]; exact hfc)]
    · have hnd1 : ¬ (s1.stack.length ≤ s1.cutFrame) := by
        rw [hst1, hcf]
        simp [lowAnd]
      have hnd2 : ¬ (s2.stack.length ≤ s2.cutFrame) := by
        rw [hs2]
        simp [lowNn, hcf]
      have lift : ∀ (A1 A2 : Machine), unwind s1 = unwind A1 → unwind s2 = unwind A2 →
          SimF L F A1 A2 →
          (∃ F' t1 t2, unwind s1 = t1 ∧ unwind s2 = t2 ∧ SimF L F' t1 t2 ∧ t1.fc = 0)
          ∨ (∃ v1, 0 < v1.fc ∧ unwind s1 = unwind v1 ∧ v1.stack = lowAnd L
              ∧ unwind s2 = unwind { v1 with pc := v1.pc + 2, stack := lowNn L }
              ∧ v1.result = false ∧ v1.done = false ∧ v1.cutDeferred = false ∧ v1.cutFrame = 0) := by
        intro A1 A2 e1 e2 hSF
        rcases ih A1 A2 hSF with ⟨Fx, t1, t2, u1, u2, hSx, hfc0⟩ | ⟨v1, hv1, hv2, hv3, hv4, hv5⟩
        · exact Or.inl ⟨Fx, t1, t2, e1.trans u1, e2.trans u2, hSx, hfc0⟩
        · exact Or.inr ⟨v1, hv1, e1.trans hv2, hv3, e2.trans hv4, hv5⟩
      subst hs2
      cases f with
      | backtrack bir bcr blr brc bpc =>
        apply lift ({ s1 with ir := bir, cr := bcr, lr := blr, rc := brc, pc := bpc, stack := F ++ lowAnd L, cutFrame := 0, fc := s1.fc - 1 }) ({ s1 with ir := bir, cr := bcr, lr := blr, rc := brc, pc := bpc + 2, stack := F.map (shiftFrame 2) ++ lowNn L, cutFrame := 0, fc := s1.fc - 1 })
        · rw [unwind_eq_of_stack s1 _ _ hst1, unwindAux, if_neg hfc, if_neg hnd1, unwind]
          simp [hst1, hcf]
        · rw [unwind_eq_of_stack _ (shiftFrame 2 (.backtrack bir bcr blr brc bpc))
            (F.map (shiftFrame 2) ++ lowNn L) (by simp), unwindAux, if_neg (by simpa using hfc),
            if_neg (by simpa using hnd2), unwind]
          simp [shiftFrame, hcf]
        · exact ⟨rfl, by simp, hres, hdone, hcd, rfl⟩
      | call cpc =>
        apply lift ({ s1 with stack := F ++ lowAnd L, cutFrame := 0 }) ({ s1 with pc := s1.pc + 2, stack := F.map (shiftFrame 2) ++ lowNn L, cutFrame := 0 })
        · rw [unwind_eq_of_stack s1 _ _ hst1, unwindAux, if_neg hfc, if_neg hnd1, unwind]
          simp [hst1, hcf]
        · rw [unwind_eq_of_stack _ (shiftFrame 2 (.call cpc))
            (F.map (shiftFrame 2) ++ lowNn L) (by simp), unwindAux, if_neg (by simpa using hfc),
            if_neg (by simpa using hnd2), unwind]
          simp [shiftFrame, hcf]
        · exact ⟨rfl, rfl, hres, hdone, hcd, rfl⟩
      | capture sub =>
        apply lift ({ s1 with stack := F ++ lowAnd L, cutFrame := 0 }) ({ s1 with pc := s1.pc + 2, stack := F.map (shiftFrame 2) ++ lowNn L, cutFrame := 0 })
        · rw [unwind_eq_of_stack s1 _ _ hst1, unwindAux, if_neg hfc, if_neg hnd1, unwind]
          simp [hst1, hcf, mda_nop, hcd]
        · rw [unwind_eq_of_stack _ (shiftFrame 2 (.capture sub))
            (F.map (shiftFrame 2) ++ lowNn L) (by simp), unwindAux, if_neg (by simpa using hfc),
            if_neg (by simpa using hnd2), unwind]
          simp [shiftFrame, hcf, mda_nop, hcd]
        · exact ⟨rfl, rfl, hres, hdone, hcd, rfl⟩
      | lrcall m =>
        cases hsa : m.sa with
        | some a =>
          apply lift ({ s1 with ir := a.ir, cr := a.cr, lr := a.lr, pc := m.pcr, rc := (restoreResponsesAfter m.rcr s1.responses m.responses).length, responses := restoreResponsesAfter m.rcr s1.responses m.responses, stack := F ++ lowAnd L, cutFrame := 0, fc := s1.fc - 1 }) ({ s1 with ir := a.ir, cr := a.cr, lr := a.lr, pc := m.pcr + 2, rc := (restoreResponsesAfter m.rcr s1.responses m.responses).length, responses := restoreResponsesAfter m.rcr s1.responses m.responses, stack := F.map (shiftFrame 2) ++ lowNn L, cutFrame := 0, fc := s1.fc - 1 })
          · rw [unwind_eq_of_stack s1 _ _ hst1, unwindAux, if_neg hfc, if_neg hnd1, unwind]
            simp [hst1, hsa, hcf, mda_nop, hcd]
          · rw [unwind_eq_of_stack _ (shiftFrame 2 (.lrcall m))
              (F.map (shiftFrame 2) ++ lowNn L) (by simp), unwindAux, if_neg (by simpa using hfc),
              if_neg (by simpa using hnd2), unwind]
            simp [shiftFrame, hsa, hcf, mda_nop, hcd]
          · exact ⟨rfl, rfl, hres, hdone, hcd, rfl⟩
        | none =>
          apply lift ({ s1 with stack := F ++ lowAnd L, cutFrame := 0 }) ({ s1 with pc := s1.pc + 2, stack := F.map (shiftFrame 2) ++ lowNn L, cutFrame := 0 })
          · rw [unwind_eq_of_stack s1 _ _ hst1, unwindAux, if_neg hfc, if_neg hnd1, unwind]
            simp [hst1, hsa, hcf, mda_nop, hcd]
          · rw [unwind_eq_of_stack _ (shiftFrame 2 (.lrcall m))
              (F.map (shiftFrame 2) ++ lowNn L) (by simp), unwindAux, if_neg (by simpa using hfc),
              if_neg (by simpa using hnd2), unwind]
            simp [shiftFrame, hsa, hcf, mda_nop, hcd]
          · exact ⟨rfl, rfl, hres, hdone, hcd, rfl⟩

theorem popResponsesAfter_zero (rs : List Response) : popResponsesAfter 0 rs = [] := by
  cases rs <;> simp [popResponsesAfter]

theorem fetch_append_right (A B : List Word) (j : Int) (w : Word)
    (h : fetch B j = some w) : fetch (A ++ B) ((A.length : Int) + j) = some w := by
  unfold fetch at h ⊢
  by_cases hb : 0 ≤ j ∧ j.toNat < B.length
  · rw [dif_pos hb] at h
    have hb2 : 0 ≤ (A.length : Int) + j ∧ ((A.length : Int) + j).toNat < (A ++ B).length := by
      rw [List.length_append]
      omega
    rw [dif_pos hb2, ← h]
    simp only [List.get_eq_getElem, Option.some.injEq]
    rw [List.getElem_append_right (by omega)]
    congr 1
    omega
  · rw [dif_neg hb] at h
    exact absurd h (by simp)

theorem fetch_append_left (B C : List Word) (j : Int) (w : Word)
    (h : fetch B j = some w) : fetch (B ++ C) j = some w := by
  unfold fetch at h ⊢
  by_cases hb : 0 ≤ j ∧ j.toNat < B.length
  · rw [dif_pos hb] at h
    have hb2 : 0 ≤ j ∧ j.toNat < (B ++ C).length := by
      rw [List.length_append]
      omega
    rw [dif_pos hb2, ← h]
    simp only [List.get_eq_getElem, Option.some.injEq]
    rw [List.getElem_append_left hb.2]
  · rw [dif_neg hb] at h
    exact absurd h (by simp)

theorem takeStrWords_append_right (A B : List Word) (n : Nat) :
    ∀ (j : Int) (bs : List Nat), takeStrWords B j n = some bs →
      takeStrWords (A ++ B) ((A.length : Int) + j) n = some bs := by
  induction n with
  | zero => intro j bs h; exact h
  | succ n ih =>
    intro j bs h
    simp only [takeStrWords] at h ⊢
    cases hf : fetch B j with
    | none => rw [hf] at h; simp at h
    | some w =>
      rw [hf] at h
      rw [fetch_append_right A B j w hf]
      cases w with
      | pfx op hasOff hasStr alt val => simp at h
      | off o => simp at h
      | strw b0 b1 b2 b3 =>
        simp only at h ⊢
        cases hr : takeStrWords B (j + 1) n with
        | none => rw [hr] at h; simp at h
        | some bs2 =>
          rw [hr] at h
          have h2 := ih (j + 1) bs2 hr
          have harith : (A.length : Int) + j + 1 = (A.length : Int) + (j + 1) := by ring
          rw [harith, h2]
          exact h

theorem takeStrWords_append_left (B C : List Word) (n : Nat) :
    ∀ (j : Int) (bs : List Nat), takeStrWords B j n = some bs →
      takeStrWords (B ++ C) j n = some bs := by
  induction n with
  | zero => intro j bs h; exact h
  | succ n ih =>
    intro j bs h
    simp only [takeStrWords] at h ⊢
    cases hf : fetch B j with
    | none => rw [hf] at h; simp at h
    | some w =>
      rw [hf] at h
      rw [fetch_append_left B C j w hf]
      cases w with
      | pfx op hasOff hasStr alt val => simp at h
      | off o => simp at h
      | strw b0 b1 b2 b3 =>
        simp only at h ⊢
        cases hr : takeStrWords B (j + 1) n with
        | none => rw [hr] at h; simp at h
        | some bs2 =>
          rw [hr] at h
          rw [ih (j + 1) bs2 hr]
          exact h

theorem decode_append_right (A B : List Word) (j jJ : Int) (d : Decoded)
    (h : decode B j = some (d, jJ)) :
    decode (A ++ B) ((A.length : Int) + j) = some (d, (A.length : Int) + jJ) := by
  unfold decode at h ⊢
  cases hf : fetch B j with
  | none => rw [hf] at h; simp at h
  | some w =>
    rw [hf] at h
    rw [fetch_append_right A B j w hf]
    cases w with
    | off o => simp at h
    | strw b0 b1 b2 b3 => simp at h
    | pfx op hasOff hasStr alt val =>
      simp only at h ⊢
      by_cases ho : hasOff
      · subst ho
        simp only [if_true] at h ⊢
        cases hf1 : fetch B (j + 1) with
        | none => rw [hf1] at h; simp at h
        | some w1 =>
          rw [hf1] at h
          have hf1s : fetch (A ++ B) ((A.length : Int) + j + 1) = some w1 := by
            have harith : (A.length : Int) + j + 1 = (A.length : Int) + (j + 1) := by ring
            rw [harith]
            exact fetch_append_right A B (j + 1) w1 hf1
          rw [hf1s]
          cases w1 with
          | pfx a b c d e => simp at h
          | strw b0 b1 b2 b3 => simp at h
          | off o =>
            simp only at h ⊢
            by_cases hs : hasStr
            · subst hs
              simp only [if_true] at h ⊢
              cases ht : takeStrWords B (j + 1 + 1) ((val % 256 + 4) / 4) with
              | none => rw [ht] at h; simp at h
              | some bs =>
                rw [ht] at h
                have hts : takeStrWords (A ++ B) ((A.length : Int) + j + 1 + 1)
                    ((val % 256 + 4) / 4) = some bs := by
                  have harith : (A.length : Int) + j + 1 + 1 = (A.length : Int) + (j + 1 + 1) := by
                    ring
                  rw [harith]
                  exact takeStrWords_append_right A B _ (j + 1 + 1) bs ht
                rw [hts]
                simp only [Option.some.injEq, Prod.mk.injEq] at h ⊢
                refine ⟨h.1, ?_⟩
                rw [← h.2]
                ring
            · simp only [if_neg hs] at h ⊢
              simp only [Option.some.injEq, Prod.mk.injEq] at h ⊢
              refine ⟨h.1, ?_⟩
              rw [← h.2]
              ring
      · simp only [if_neg ho] at h ⊢
        by_cases hs : hasStr
        · subst hs
          simp only [if_true] at h ⊢
          cases ht : takeStrWords B (j + 1) ((val % 256 + 4) / 4) with
          | none => rw [ht] at h; simp at h
          | some bs =>
            rw [ht] at h
            have hts : takeStrWords (A ++ B) ((A.length : Int) + j + 1)
                ((val % 256 + 4) / 4) = some bs := by
              have harith : (A.length : Int) + j + 1 = (A.length : Int) + (j + 1) := by ring
              rw [harith]
              exact takeStrWords_append_right A B _ (j + 1) bs ht
            rw [hts]
            simp only [Option.some.injEq, Prod.mk.injEq] at h ⊢
            refine ⟨h.1, ?_⟩
            rw [← h.2]
            ring
        · simp only [if_neg hs] at h ⊢
          simp only [Option.some.injEq, Prod.mk.injEq] at h ⊢
          refine ⟨h.1, ?_⟩
          rw [← h.2]
          ring

theorem decode_append_left (B C : List Word) (j jJ : Int) (d : Decoded)
    (h : decode B j = some (d, jJ)) :
    decode (B ++ C) j = some (d, jJ) := by
  unfold decode at h ⊢
  cases hf : fetch B j with
  | none => rw [hf] at h; simp at h
  | some w =>
    rw [hf] at h
    rw [fetch_append_left B C j w hf]
    cases w with
    | off o => simp at h
    | strw b0 b1 b2 b3 => simp at h
    | pfx op hasOff hasStr alt val =>
      simp only at h ⊢
      by_cases ho : hasOff
      · subst ho
        simp only [if_true] at h ⊢
        cases hf1 : fetch B (j + 1) with
        | none => rw [hf1] at h; simp at h
        | some w1 =>
          rw [hf1] at h
          rw [fetch_append_left B C (j + 1) w1 hf1]
          cases w1 with
          | pfx a b c d e => simp at h
          | strw b0 b1 b2 b3 => simp at h
          | off o =>
            simp only at h ⊢
            by_cases hs : hasStr
            · subst hs
              simp only [if_true] at h ⊢
              cases ht : takeStrWords B (j + 1 + 1) ((val % 256 + 4) / 4) with
              | none => rw [ht] at h; simp at h
              | some bs =>
                rw [ht] at h
                rw [takeStrWords_append_left B C _ (j + 1 + 1) bs ht]
                exact h
            · simp only [if_neg hs] at h ⊢
              exact h
      · simp only [if_neg ho] at h ⊢
        by_cases hs : hasStr
        · subst hs
          simp only [if_true] at h ⊢
          cases ht : takeStrWords B (j + 1) ((val % 256 + 4) / 4) with
          | none => rw [ht] at h; simp at h
          | some bs =>
            rw [ht] at h
            rw [takeStrWords_append_left B C _ (j + 1) bs ht]
            exact h
        · simp only [if_neg hs] at h ⊢
          exact h

theorem failWith_eq (s : Machine) :
    s.failWith = postFail (unwind { s.updMax with fc := s.fc + 1 }) := rfl

theorem shiftFrame_lrcall (d : Int) (m : LrMemo) :
    shiftFrame d (.lrcall m) = .lrcall (shiftMemo d m) := rfl

theorem lrmemos_append (A B : List Frame) : lrmemos (A ++ B) = lrmemos A ++ lrmemos B := by
  simp [lrmemos]

theorem lrmemos_shift (F : List Frame) :
    lrmemos (F.map (shiftFrame 2)) = (lrmemos F).map (shiftMemo 2) := by
  induction F with
  | nil => rfl
  | cons f F ih =>
    cases f <;> simp [lrmemos, shiftFrame, shiftMemo] at ih ⊢ <;> exact ih

theorem lrmemos_lowAnd (L : Int) : lrmemos (lowAnd L) = [] := rfl

theorem lrmemos_lowNn (L : Int) : lrmemos (lowNn L) = [] := rfl

theorem callDepth_append (A B : List Frame) :
    callDepth (A ++ B) = callDepth A + callDepth B := by
  simp [callDepth]

theorem callDepth_shift (F : List Frame) : callDepth (F.map (shiftFrame 2)) = callDepth F := by
  induction F with
  | nil => rfl
  | cons f F ih =>
    cases f <;> simp [callDepth, shiftFrame] at ih ⊢ <;> omega

theorem callDepth_ctx (L : Int) (F : List Frame) :
    callDepth (F.map (shiftFrame 2) ++ lowNn L) = callDepth (F ++ lowAnd L) := by
  rw [callDepth_append, callDepth_append, callDepth_shift]
  rfl

theorem findMemo_shift (ir : Nat) (pca : Int) (ms : List LrMemo) :
    findMemo ir (pca + 2) (ms.map (shiftMemo 2)) = (findMemo ir pca ms).map (shiftMemo 2) := by
  induction ms with
  | nil => rfl
  | cons m ms ih =>
    simp only [List.map_cons, findMemo]
    by_cases h1 : m.sr.ir ≥ ir
    · rw [if_pos (by simpa [shiftMemo] using h1), if_pos h1]
      by_cases h2 : m.sr.ir = ir ∧ m.pca = pca
      · rw [if_pos (by simp [shiftMemo]; exact ⟨h2.1, by omega⟩), if_pos h2]
        rfl
      · rw [if_neg (by simp [shiftMemo]; intro ha hb; exact absurd ⟨ha, by omega⟩ h2), if_neg h2]
        exact ih
    · rw [if_neg (by simpa [shiftMemo] using h1), if_neg h1]
      rfl

theorem simF_postFail (L : Int) (F : List Frame) (t1 t2 : Machine) (h : SimF L F t1 t2) :
    SimF L F (postFail t1) (postFail t2) := by
  obtain ⟨hst, he, hres, hdone, hcd, hcf⟩ := h
  subst he
  exact ⟨hst, rfl, hres, hdone, hcd, hcf⟩

theorem failWith_pair (L : Int) (F : List Frame) (s1 s2 : Machine) (hS : SimF L F s1 s2) :
    (∃ F2, SimF L F2 s1.failWith s2.failWith) ∨ CrossFail L s1.failWith s2.failWith := by
  obtain ⟨hst1, hs2, hres, hdone, hcd, hcf⟩ := hS
  subst hs2
  rw [failWith_eq, failWith_eq]
  have hW : SimF L F { s1.updMax with fc := s1.fc + 1 }
      { ({ s1 with pc := s1.pc + 2, stack := F.map (shiftFrame 2) ++ lowNn L } : Machine).updMax with
        fc := ({ s1 with pc := s1.pc + 2, stack := F.map (shiftFrame 2) ++ lowNn L } : Machine).fc + 1 } := by
    unfold Machine.updMax
    by_cases hm : s1.maxInput.ir < s1.ir
    · rw [if_pos hm, if_pos (by simpa using hm)]
      exact ⟨hst1, rfl, hres, hdone, hcd, hcf⟩
    · rw [if_neg hm, if_neg (by simpa using hm)]
      exact ⟨hst1, rfl, hres, hdone, hcd, hcf⟩
  rcases unwind_pair L F _ _ hW with ⟨F2, t1, t2, u1, u2, hS2, _⟩ | ⟨v1, hv1, hv2, hv3, hv4, hv5, hv6, hv7, hv8⟩
  · rw [u1, u2]
    exact Or.inl ⟨F2, simF_postFail L F2 t1 t2 hS2⟩
  · rw [hv2, hv4]
    exact Or.inr ⟨v1, hv1, hv3, hv5, hv6, hv7, hv8, rfl, rfl⟩

set_option maxHeartbeats 1600000 in
theorem step_sim (P1 P2 : Prog) (ext : UnicodeExt) (L : Int) (F : List Frame)
    (s1 s2 : Machine) (d : Decoded) (pcJ : Int)
    (hS : SimF L F s1 s2)
    (hdec1 : decode P1.instructions s1.pc = some (d, pcJ))
    (hdec2 : decode P2.instructions (s1.pc + 2) = some (d, pcJ + 2))
    (hacc : d.op ≠ .accept) (hpred : d.op ≠ .predicate)
    (hcom : d.op = .commit → F ≠ []) :
    (∃ t1 t2, step P1 ext s1 = .ok t1 ∧ step P2 ext s2 = .ok t2
      ∧ (Sim L t1 t2 ∨ CrossFail L t1 t2))
    ∨ (step P1 ext s1 = .error .badOpcode ∧ step P2 ext s2 = .error .badOpcode) := by
  obtain ⟨hst1, hs2, hres, hdone, hcd, hcf⟩ := hS
  subst hs2
  obtain ⟨op, alt, imm, off, str⟩ := d
  generalize hg1 : step P1 ext s1 = r1
  generalize hg2 : step P2 ext
    { s1 with pc := s1.pc + 2, stack := F.map (shiftFrame 2) ++ lowNn L } = r2
  cases op with
  | matchOp =>
    by_cases hempty : str.isEmpty
    · simp only [step, hdec1, hempty, if_true] at hg1
      simp only [step, hdec2, hempty, if_true] at hg2
      subst hg1
      subst hg2
      exact Or.inl ⟨_, _, rfl, rfl, Or.inl ⟨F, hst1, rfl, hres, hdone, hcd, hcf⟩⟩
    · by_cases hm : (Machine.available s1 str.length && substrEq s1.input s1.ir str) = true
      · simp only [Machine.available] at hm
        simp only [step, hdec1, hempty, if_false, Machine.available, hm, if_true] at hg1
        simp only [step, hdec2, hempty, if_false, Machine.available, hm, if_true] at hg2
        subst hg1
        subst hg2
        exact Or.inl ⟨_, _, rfl, rfl, Or.inl ⟨F, hst1, rfl, hres, hdone, hcd, hcf⟩⟩
      · simp only [Machine.available] at hm
        simp only [step, hdec1, hempty, if_false, Machine.available, hm, if_false] at hg1
        simp only [step, hdec2, hempty, if_false, Machine.available, hm, if_false] at hg2
        subst hg1
        subst hg2
        exact Or.inl ⟨_, _, rfl, rfl, failWith_pair L F _ _ ⟨hst1, rfl, hres, hdone, hcd, hcf⟩⟩
  | matchAny =>
    by_cases hm : Machine.available s1 1 = true
    · simp only [Machine.available] at hm
      simp only [step, hdec1, Machine.available, hm, if_true] at hg1
      simp only [step, hdec2, Machine.available, hm, if_true] at hg2
      subst hg1
      subst hg2
      exact Or.inl ⟨_, _, rfl, rfl, Or.inl ⟨F, hst1, rfl, hres, hdone, hcd, hcf⟩⟩
    · simp only [Machine.available] at hm
      simp only [step, hdec1, Machine.available, hm, if_false] at hg1
      simp only [step, hdec2, Machine.available, hm, if_false] at hg2
      subst hg1
      subst hg2
      exact Or.inl ⟨_, _, rfl, rfl, failWith_pair L F _ _ ⟨hst1, rfl, hres, hdone, hcd, hcf⟩⟩
  | matchClass =>
    by_cases hm : Machine.available s1 1 = true
    · cases hq : classQuery ext alt imm str (ext.decodeRune (s1.input.drop s1.ir)).1 with
      | none =>
        simp only [Machine.available] at hm
        simp only [step, hdec1, Machine.available, hm, if_true, hq] at hg1
        simp only [step, hdec2, Machine.available, hm, if_true, hq] at hg2
        subst hg1
        subst hg2
        exact Or.inr ⟨rfl, rfl⟩
      | some b =>
        cases b with
        | true =>
          simp only [Machine.available] at hm
          simp only [step, hdec1, Machine.available, hm, if_true, hq] at hg1
          simp only [step, hdec2, Machine.available, hm, if_true, hq] at hg2
          subst hg1
          subst hg2
          exact Or.inl ⟨_, _, rfl, rfl, failWith_pair L F _ _ ⟨hst1, rfl, hres, hdone, hcd, hcf⟩⟩
        | false =>
          simp only [Machine.available] at hm
          simp only [step, hdec1, Machine.available, hm, if_true, hq] at hg1
          simp only [step, hdec2, Machine.available, hm, if_true, hq] at hg2
          subst hg1
          subst hg2
          exact Or.inl ⟨_, _, rfl, rfl, Or.inl ⟨F, hst1, rfl, hres, hdone, hcd, hcf⟩⟩
    · simp only [Machine.available] at hm
      simp only [step, hdec1, Machine.available, hm, if_false] at hg1
      simp only [step, hdec2, Machine.available, hm, if_false] at hg2
      subst hg1
      subst hg2
      exact Or.inl ⟨_, _, rfl, rfl, failWith_pair L F _ _ ⟨hst1, rfl, hres, hdone, hcd, hcf⟩⟩
  | matchRange =>
    by_cases hm : Machine.available s1 (min (str.take imm).length (str.drop imm).length) = true
    · by_cases hc : cmpSub s1.input s1.ir (ext.sizeOfFirstRune (s1.input.drop s1.ir)) (str.take imm) = .lt
          ∨ cmpSub s1.input s1.ir (ext.sizeOfFirstRune (s1.input.drop s1.ir)) (str.drop imm) = .gt
      · simp only [Machine.available] at hm
        simp only [step, hdec1, Machine.available, hm, if_true, if_pos hc] at hg1
        simp only [step, hdec2, Machine.available, hm, if_true, if_pos hc] at hg2
        subst hg1
        subst hg2
        exact Or.inl ⟨_, _, rfl, rfl, failWith_pair L F _ _ ⟨hst1, rfl, hres, hdone, hcd, hcf⟩⟩
      · simp only [Machine.available] at hm
        simp only [step, hdec1, Machine.available, hm, if_true, if_neg hc] at hg1
        simp only [step, hdec2, Machine.available, hm, if_true, if_neg hc] at hg2
        subst hg1
        subst hg2
        exact Or.inl ⟨_, _, rfl, rfl, Or.inl ⟨F, hst1, rfl, hres, hdone, hcd, hcf⟩⟩
    · simp only [Machine.available] at hm
      simp only [step, hdec1, Machine.available, hm, if_false] at hg1
      simp only [step, hdec2, Machine.available, hm, if_false] at hg2
      subst hg1
      subst hg2
      exact Or.inl ⟨_, _, rfl, rfl, failWith_pair L F _ _ ⟨hst1, rfl, hres, hdone, hcd, hcf⟩⟩
  | choice =>
    simp only [step, hdec1] at hg1
    simp only [step, hdec2] at hg2
    subst hg1
    subst hg2
    refine Or.inl ⟨_, _, rfl, rfl, Or.inl
      ⟨.backtrack (s1.ir - imm % 256) (s1.cr - imm / 256) s1.lr s1.rc (pcJ + off) :: F,
        ?_, ?_, hres, hdone, hcd, hcf⟩⟩
    · simp only [List.cons_append]
      rw [hst1]
    · simp only [List.map_cons, shiftFrame]
      have harith : pcJ + off + 2 = pcJ + 2 + off := by ring
      rw [harith]
      simp only [List.cons_append]
  | commit =>
    have hF := hcom rfl
    cases F with
    | nil => exact absurd rfl hF
    | cons f F2 =>
      cases f with
      | backtrack bir bcr blr brc bpc =>
        cases alt with
        | zero =>
          simp only [step, hdec1, hst1, List.cons_append] at hg1
          simp only [step, hdec2, List.map_cons, List.cons_append, shiftFrame] at hg2
          subst hg1
          subst hg2
          refine Or.inl ⟨_, _, rfl, rfl, Or.inl ⟨F2, ?_, ?_, hres, hdone, hcd, ?_⟩⟩
          · simp [Machine.popTop]
          · simp [Machine.popTop, hcf, lowAnd, lowNn, List.length_append]
            ring
          · simp [Machine.popTop, hcf]
        | succ a1 =>
          cases a1 with
          | zero =>
            simp only [step, hdec1, hst1, List.cons_append] at hg1
            simp only [step, hdec2, List.map_cons, List.cons_append, shiftFrame] at hg2
            subst hg1
            subst hg2
            refine Or.inl ⟨_, _, rfl, rfl, Or.inl ⟨F2, ?_, ?_, hres, hdone, hcd, ?_⟩⟩
            · simp [Machine.popTop]
            · simp [Machine.popTop, hcf, lowAnd, lowNn, List.length_append]
              ring
            · simp [Machine.popTop, hcf]
          | succ a2 =>
            cases a2 with
            | zero =>
              simp only [step, hdec1, hst1, List.cons_append] at hg1
              simp only [step, hdec2, List.map_cons, List.cons_append, shiftFrame] at hg2
              subst hg1
              subst hg2
              refine Or.inl ⟨_, _, rfl, rfl, Or.inl
                ⟨.backtrack s1.ir s1.cr s1.lr s1.rc bpc :: F2, ?_, ?_, hres, hdone, hcd, hcf⟩⟩
              · simp
              · simp [shiftFrame]
                ring
            | succ a3 =>
              simp only [step, hdec1, hst1, List.cons_append] at hg1
              simp only [step, hdec2, List.map_cons, List.cons_append, shiftFrame] at hg2
              subst hg1
              subst hg2
              refine Or.inl ⟨_, _, rfl, rfl, Or.inl ⟨F2, ?_, ?_, hres, hdone, hcd, ?_⟩⟩
              · simp [Machine.popTop]
              · simp [Machine.popTop, hcf, lowAnd, lowNn, List.length_append]
                ring
              · simp [Machine.popTop, hcf]
      | call cpc =>
        simp only [step, hdec1, hst1, List.cons_append] at hg1
        simp only [step, hdec2, List.map_cons, List.cons_append, shiftFrame] at hg2
        subst hg1
        subst hg2
        exact Or.inl ⟨_, _, rfl, rfl,
          failWith_pair L (.call cpc :: F2) _ _ ⟨by simp only [List.cons_append], rfl, hres, hdone, hcd, hcf⟩⟩
      | capture sub =>
        simp only [step, hdec1, hst1, List.cons_append] at hg1
        simp only [step, hdec2, List.map_cons, List.cons_append, shiftFrame] at hg2
        subst hg1
        subst hg2
        exact Or.inl ⟨_, _, rfl, rfl,
          failWith_pair L (.capture sub :: F2) _ _ ⟨by simp only [List.cons_append], rfl, hres, hdone, hcd, hcf⟩⟩
      | lrcall m =>
        simp only [step, hdec1, hst1, List.cons_append] at hg1
        simp only [step, hdec2, List.map_cons, List.cons_append, shiftFrame] at hg2
        subst hg1
        subst hg2
        exact Or.inl ⟨_, _, rfl, rfl,
          failWith_pair L (.lrcall m :: F2) _ _ ⟨by simp only [List.cons_append], rfl, hres, hdone, hcd, hcf⟩⟩
  | jump =>
    simp only [step, hdec1] at hg1
    simp only [step, hdec2] at hg2
    subst hg1
    subst hg2
    refine Or.inl ⟨_, _, rfl, rfl, Or.inl ⟨F, hst1, ?_, hres, hdone, hcd, hcf⟩⟩
    have harith : pcJ + off + 2 = pcJ + 2 + off := by ring
    rw [← harith]
  | call =>
    by_cases him : imm = 0
    · subst him
      simp only [step, hdec1] at hg1
      simp only [step, hdec2] at hg2
      rw [if_neg (by simp)] at hg1
      rw [if_neg (by simp)] at hg2
      subst hg1
      subst hg2
      refine Or.inl ⟨_, _, rfl, rfl, Or.inl ⟨.call pcJ :: F, ?_, ?_, hres, hdone, hcd, hcf⟩⟩
      · simp only [List.cons_append]
        rw [hst1]
      · simp only [List.map_cons, shiftFrame]
        have harith : pcJ + off + 2 = pcJ + 2 + off := by ring
        rw [harith]
        simp only [List.cons_append]
    · have hmemo1 : lrmemos s1.stack = lrmemos F := by
        rw [hst1, lrmemos_append, lrmemos_lowAnd, List.append_nil]
      have hfm2 : findMemo s1.ir (pcJ + 2 + off) (lrmemos (F.map (shiftFrame 2) ++ lowNn L))
          = (findMemo s1.ir (pcJ + off) (lrmemos F)).map (shiftMemo 2) := by
        rw [lrmemos_append, lrmemos_lowNn, List.append_nil, lrmemos_shift]
        have harith : pcJ + 2 + off = pcJ + off + 2 := by ring
        rw [harith, findMemo_shift]
      simp only [step, hdec1] at hg1
      simp only [step, hdec2] at hg2
      rw [if_pos (by simpa using him), hmemo1] at hg1
      rw [if_pos (by simpa using him)] at hg2
      rw [hfm2] at hg2
      cases hfm : findMemo s1.ir (pcJ + off) (lrmemos F) with
      | none =>
        rw [hfm] at hg1 hg2
        try simp only [Option.map_none, Option.map_none', Option.map] at hg2
        subst hg1
        subst hg2
        refine Or.inl ⟨_, _, rfl, rfl, Or.inl
          ⟨.lrcall ⟨⟨s1.ir, s1.cr, s1.lr⟩, none, s1.rc, pcJ, pcJ + off, [], imm⟩ :: F,
            ?_, ?_, hres, hdone, hcd, hcf⟩⟩
        · simp only [List.cons_append]
          rw [hst1]
        · simp only [List.map_cons, shiftFrame, shiftMemo]
          have harith : pcJ + off + 2 = pcJ + 2 + off := by ring
          rw [harith]
          simp only [List.cons_append]
      | some m =>
        rw [hfm] at hg1 hg2
        try simp only [Option.map_some, Option.map_some', Option.map] at hg2
        cases hsa : m.sa with
        | none =>
          simp only [hsa] at hg1
          try simp only [shiftMemo, hsa] at hg2
          subst hg1
          subst hg2
          exact Or.inl ⟨_, _, rfl, rfl, failWith_pair L F _ _ ⟨hst1, rfl, hres, hdone, hcd, hcf⟩⟩
        | some a =>
          by_cases hprec : imm < m.prec
          · simp only [hsa, if_pos hprec] at hg1
            try simp only [shiftMemo, hsa] at hg2
            try rw [if_pos hprec] at hg2
            subst hg1
            subst hg2
            exact Or.inl ⟨_, _, rfl, rfl, failWith_pair L F _ _ ⟨hst1, rfl, hres, hdone, hcd, hcf⟩⟩
          · simp only [hsa, if_neg hprec] at hg1
            try simp only [shiftMemo, hsa] at hg2
            try rw [if_neg hprec] at hg2
            subst hg1
            subst hg2
            exact Or.inl ⟨_, _, rfl, rfl, Or.inl ⟨F, hst1, rfl, hres, hdone, hcd, hcf⟩⟩
  | ret =>
    cases F with
    | nil =>
      simp only [step, hdec1, hst1, List.nil_append, lowAnd] at hg1
      simp only [step, hdec2, List.map_nil, List.nil_append, lowNn] at hg2
      subst hg1
      subst hg2
      exact Or.inl ⟨_, _, rfl, rfl, failWith_pair L [] _ _ ⟨by simp [lowAnd], rfl, hres, hdone, hcd, hcf⟩⟩
    | cons f F2 =>
      cases f with
      | backtrack bir bcr blr brc bpc =>
        simp only [step, hdec1, hst1, List.cons_append] at hg1
        simp only [step, hdec2, List.map_cons, List.cons_append, shiftFrame] at hg2
        subst hg1
        subst hg2
        exact Or.inl ⟨_, _, rfl, rfl, failWith_pair L (.backtrack bir bcr blr brc bpc :: F2) _ _
          ⟨by simp only [List.cons_append], rfl, hres, hdone, hcd, hcf⟩⟩
      | capture sub =>
        simp only [step, hdec1, hst1, List.cons_append] at hg1
        simp only [step, hdec2, List.map_cons, List.cons_append, shiftFrame] at hg2
        subst hg1
        subst hg2
        exact Or.inl ⟨_, _, rfl, rfl,
          failWith_pair L (.capture sub :: F2) _ _ ⟨by simp only [List.cons_append], rfl, hres, hdone, hcd, hcf⟩⟩
      | call cpc =>
        simp only [step, hdec1, hst1, List.cons_append] at hg1
        simp only [step, hdec2, List.map_cons, List.cons_append, shiftFrame] at hg2
        subst hg1
        subst hg2
        refine Or.inl ⟨_, _, rfl, rfl, Or.inl ⟨F2, ?_, ?_, hres, hdone, hcd, ?_⟩⟩
        · simp [Machine.popTop]
        · simp [Machine.popTop, hcf, lowAnd, lowNn, List.length_append]
        · simp [Machine.popTop, hcf]
      | lrcall m =>
        by_cases hgrow : m.sa = none ∨ (m.sa.map Subject.ir).getD 0 < s1.ir
        · simp only [step, hdec1, hst1, List.cons_append] at hg1
          simp only [step, hdec2, List.map_cons, List.cons_append, shiftFrame, shiftMemo] at hg2
          rw [if_pos hgrow] at hg1
          rw [if_pos (by simpa using hgrow)] at hg2
          subst hg1
          subst hg2
          refine Or.inl ⟨_, _, rfl, rfl, Or.inl
            ⟨.lrcall ({ m with sa := some ⟨s1.ir, s1.cr, s1.lr⟩, responses := (dropResponsesAfter m.rcr s1.responses).1 }) :: F2,
              ?_, ?_, hres, hdone, hcd, hcf⟩⟩
          · simp only [List.cons_append]
          · simp only [List.map_cons, shiftFrame, shiftMemo, List.cons_append]
        · cases hsa : m.sa with
          | none => exact absurd (Or.inl hsa) hgrow
          | some a =>
            simp only [step, hdec1, hst1, List.cons_append] at hg1
            simp only [step, hdec2, List.map_cons, List.cons_append, shiftFrame, shiftMemo] at hg2
            rw [if_neg hgrow] at hg1
            rw [if_neg (by simpa using hgrow)] at hg2
            simp only [hsa] at hg1 hg2
            simp only [mda_nop, Machine.popTop, hcd] at hg1 hg2
            subst hg1
            subst hg2
            refine Or.inl ⟨_, _, rfl, rfl, Or.inl ⟨F2, ?_, ?_, hres, hdone, ?_, ?_⟩⟩
            · simp [Machine.popTop]
            · simp [Machine.popTop, hcf, lowAnd, lowNn, List.length_append]
            · rfl
            · simp [Machine.popTop, hcf]
  | fail =>
    simp only [step, hdec1] at hg1
    simp only [step, hdec2] at hg2
    subst hg1
    subst hg2
    exact Or.inl ⟨_, _, rfl, rfl, failWith_pair L F _ _ ⟨hst1, rfl, hres, hdone, hcd, hcf⟩⟩
  | accept => exact absurd rfl hacc
  | newline =>
    simp only [step, hdec1] at hg1
    simp only [step, hdec2] at hg2
    subst hg1
    subst hg2
    exact Or.inl ⟨_, _, rfl, rfl, Or.inl ⟨F, hst1, rfl, hres, hdone, hcd, hcf⟩⟩
  | predicate => exact absurd rfl hpred
  | action =>
    simp only [step, hdec1] at hg1
    simp only [step, hdec2] at hg2
    subst hg1
    subst hg2
    refine Or.inl ⟨_, _, rfl, rfl, Or.inl ⟨F, hst1, ?_, hres, hdone, hcd, hcf⟩⟩
    rw [hst1, callDepth_ctx]
  | beginCapture =>
    simp only [step, hdec1] at hg1
    simp only [step, hdec2] at hg2
    subst hg1
    subst hg2
    refine Or.inl ⟨_, _, rfl, rfl, Or.inl
      ⟨.capture ⟨s1.ir, s1.cr, s1.lr⟩ :: F, ?_, ?_, hres, hdone, hcd, hcf⟩⟩
    · simp only [List.cons_append]
      rw [hst1]
    · simp only [List.map_cons, shiftFrame, List.cons_append]
  | endCapture =>
    cases F with
    | nil =>
      simp only [step, hdec1, hst1, List.nil_append, lowAnd] at hg1
      simp only [step, hdec2, List.map_nil, List.nil_append, lowNn] at hg2
      subst hg1
      subst hg2
      exact Or.inl ⟨_, _, rfl, rfl, failWith_pair L [] _ _ ⟨by simp [lowAnd], rfl, hres, hdone, hcd, hcf⟩⟩
    | cons f F2 =>
      cases f with
      | backtrack bir bcr blr brc bpc =>
        simp only [step, hdec1, hst1, List.cons_append] at hg1
        simp only [step, hdec2, List.map_cons, List.cons_append, shiftFrame] at hg2
        subst hg1
        subst hg2
        exact Or.inl ⟨_, _, rfl, rfl, failWith_pair L (.backtrack bir bcr blr brc bpc :: F2) _ _
          ⟨by simp only [List.cons_append], rfl, hres, hdone, hcd, hcf⟩⟩
      | call cpc =>
        simp only [step, hdec1, hst1, List.cons_append] at hg1
        simp only [step, hdec2, List.map_cons, List.cons_append, shiftFrame] at hg2
        subst hg1
        subst hg2
        exact Or.inl ⟨_, _, rfl, rfl,
          failWith_pair L (.call cpc :: F2) _ _ ⟨by simp only [List.cons_append], rfl, hres, hdone, hcd, hcf⟩⟩
      | lrcall m =>
        simp only [step, hdec1, hst1, List.cons_append] at hg1
        simp only [step, hdec2, List.map_cons, List.cons_append, shiftFrame] at hg2
        subst hg1
        subst hg2
        exact Or.inl ⟨_, _, rfl, rfl,
          failWith_pair L (.lrcall m :: F2) _ _ ⟨by simp only [List.cons_append], rfl, hres, hdone, hcd, hcf⟩⟩
      | capture c0 =>
        by_cases hlt : s1.ir < c0.ir
        · simp only [step, hdec1, hst1, List.cons_append, mda_nop, Machine.popTop, hcd] at hg1
          simp only [step, hdec2, List.map_cons, List.cons_append, shiftFrame, mda_nop,
            Machine.popTop, hcd] at hg2
          rw [if_pos hlt] at hg1
          rw [if_pos hlt] at hg2
          subst hg1
          subst hg2
          refine Or.inl ⟨_, _, rfl, rfl, failWith_pair L F2 _ _ ⟨?_, ?_, hres, hdone, ?_, ?_⟩⟩
          · simp [Machine.popTop]
          · simp [Machine.popTop, hcf, lowAnd, lowNn, List.length_append]
          · rfl
          · simp [Machine.popTop, hcf]
        · simp only [step, hdec1, hst1, List.cons_append, mda_nop, Machine.popTop, hcd] at hg1
          simp only [step, hdec2, List.map_cons, List.cons_append, shiftFrame, mda_nop,
            Machine.popTop, hcd] at hg2
          rw [if_neg hlt] at hg1
          rw [if_neg hlt] at hg2
          subst hg1
          subst hg2
          refine Or.inl ⟨_, _, rfl, rfl, Or.inl ⟨F2, ?_, ?_, hres, hdone, ?_, ?_⟩⟩
          · simp [Machine.popTop]
          · simp [Machine.popTop, hcf, lowAnd, lowNn, List.length_append, callDepth_ctx]
            rw [callDepth_append, callDepth_append, callDepth_shift]
            rfl
          · rfl
          · simp [Machine.popTop, hcf]

theorem dec_and_pre (ec : List Word) (preds : List (Regs → Bool × Regs)) (j jJ : Int) (d : Decoded)
    (h : decode [ Word.pfx .call true false 0 0, Word.off 1
                , Word.pfx .accept false false 1 0
                , Word.pfx .choice true false 0 0, Word.off (2 + (ec.length : Int)) ] j
      = some (d, jJ)) :
    decode (andProgOf ec preds).instructions j = some (d, jJ) :=
  decode_append_left _ _ _ _ _ (decode_append_left _ ec _ _ _ h)

theorem dec_nn_pre (ec : List Word) (preds : List (Regs → Bool × Regs)) (j jJ : Int) (d : Decoded)
    (h : decode [ Word.pfx .call true false 0 0, Word.off 1
                , Word.pfx .accept false false 1 0
                , Word.pfx .choice true false 0 0, Word.off ((ec.length : Int) + 4)
                , Word.pfx .choice true false 0 0, Word.off ((ec.length : Int) + 1) ] j
      = some (d, jJ)) :
    decode (nnProgOf ec preds).instructions j = some (d, jJ) :=
  decode_append_left _ _ _ _ _ (decode_append_left _ ec _ _ _ h)

theorem dec_and_window (ec : List Word) (preds : List (Regs → Bool × Regs)) (rel relJ : Int)
    (d : Decoded) (h : decode ec rel = some (d, relJ)) :
    decode (andProgOf ec preds).instructions (5 + rel) = some (d, 5 + relJ) := by
  have h1 := decode_append_left ec
    [ Word.pfx .commit true false 1 0, Word.off 1
    , Word.pfx .fail false false 0 0
    , Word.pfx .ret false false 0 0 ] rel relJ d h
  have h2 := decode_append_right
    [ Word.pfx .call true false 0 0, Word.off 1
    , Word.pfx .accept false false 1 0
    , Word.pfx .choice true false 0 0, Word.off (2 + (ec.length : Int)) ] _ rel relJ d h1
  simpa using h2

theorem dec_nn_window (ec : List Word) (preds : List (Regs → Bool × Regs)) (rel relJ : Int)
    (d : Decoded) (h : decode ec rel = some (d, relJ)) :
    decode (nnProgOf ec preds).instructions (7 + rel) = some (d, 7 + relJ) := by
  have h1 := decode_append_left ec
    [ Word.pfx .fail false false 0 1
    , Word.pfx .fail false false 0 1
    , Word.pfx .ret false false 0 0 ] rel relJ d h
  have h2 := decode_append_right
    [ Word.pfx .call true false 0 0, Word.off 1
    , Word.pfx .accept false false 1 0
    , Word.pfx .choice true false 0 0, Word.off ((ec.length : Int) + 4)
    , Word.pfx .choice true false 0 0, Word.off ((ec.length : Int) + 1) ] _ rel relJ d h1
  simpa using h2

theorem dec_and_tail (ec : List Word) (preds : List (Regs → Bool × Regs)) (L : Int)
    (hL : L = (ec.length : Int)) (j jJ : Int) (d : Decoded)
    (h : decode [ Word.pfx .commit true false 1 0, Word.off 1
                , Word.pfx .fail false false 0 0
                , Word.pfx .ret false false 0 0 ] j = some (d, jJ)) :
    decode (andProgOf ec preds).instructions (L + 5 + j) = some (d, L + 5 + jJ) := by
  have h2 := decode_append_right
    ([ Word.pfx .call true false 0 0, Word.off 1
     , Word.pfx .accept false false 1 0
     , Word.pfx .choice true false 0 0, Word.off (2 + (ec.length : Int)) ] ++ ec) _ j jJ d h
  have hlen : ((([ Word.pfx .call true false 0 0, Word.off 1
     , Word.pfx .accept false false 1 0
     , Word.pfx .choice true false 0 0
     , Word.off (2 + (ec.length : Int)) ] ++ ec).length : Int)) = L + 5 := by
    simp [List.length_append, hL]
    ring
  rw [hlen] at h2
  exact h2

theorem dec_nn_tail (ec : List Word) (preds : List (Regs → Bool × Regs)) (L : Int)
    (hL : L = (ec.length : Int)) (j jJ : Int) (d : Decoded)
    (h : decode [ Word.pfx .fail false false 0 1
                , Word.pfx .fail false false 0 1
                , Word.pfx .ret false false 0 0 ] j = some (d, jJ)) :
    decode (nnProgOf ec preds).instructions (L + 7 + j) = some (d, L + 7 + jJ) := by
  have h2 := decode_append_right
    ([ Word.pfx .call true false 0 0, Word.off 1
     , Word.pfx .accept false false 1 0
     , Word.pfx .choice true false 0 0, Word.off ((ec.length : Int) + 4)
     , Word.pfx .choice true false 0 0, Word.off ((ec.length : Int) + 1) ] ++ ec) _ j jJ d h
  have hlen : ((([ Word.pfx .call true false 0 0, Word.off 1
     , Word.pfx .accept false false 1 0
     , Word.pfx .choice true false 0 0, Word.off ((ec.length : Int) + 4)
     , Word.pfx .choice true false 0 0
     , Word.off ((ec.length : Int) + 1) ] ++ ec).length : Int)) = L + 7 := by
    simp [List.length_append, hL]
    ring
  rw [hlen] at h2
  exact h2

theorem unwind_low2_two (L : Int) (v : Machine) (hst : v.stack = lowNn L) (hcf : v.cutFrame = 0)
    (hfc : v.fc = 2) :
    unwind v = { v with
      ir := 0, cr := 1, lr := 1, rc := 0, pc := L + 9, fc := 0
      stack := [.call 2], cutFrame := 0 } := by
  unfold unwind
  rw [hst]
  simp [unwindAux, lowNn, hst, hcf, hfc]

theorem updMax_proj (s : Machine) :
    (updMax s).input = s.input ∧ (updMax s).ir = s.ir ∧ (updMax s).cr = s.cr
    ∧ (updMax s).lr = s.lr ∧ (updMax s).rc = s.rc ∧ (updMax s).pc = s.pc
    ∧ (updMax s).fc = s.fc ∧ (updMax s).cutDeferred = s.cutDeferred
    ∧ (updMax s).cutFrame = s.cutFrame ∧ (updMax s).stack = s.stack
    ∧ (updMax s).responses = s.responses ∧ (updMax s).captures = s.captures
    ∧ (updMax s).result = s.result ∧ (updMax s).done = s.done := by
  unfold updMax
  by_cases h : s.maxInput.ir < s.ir <;> simp [h]

theorem and_exit_success (ec : List Word) (preds : List (Regs → Bool × Regs)) (ext : UnicodeExt)
    (L : Int) (hL : L = (ec.length : Int)) (s1 : Machine)
    (hpc : s1.pc = L + 5) (hst : s1.stack = lowAnd L) (hcf : s1.cutFrame = 0) :
    ∃ t1, stepN (andProgOf ec preds) ext 3 s1 = .ok t1 ∧ t1.done = true ∧ t1.result = true
      ∧ t1.ir = 0 ∧ t1.cr = 1 ∧ t1.lr = 1 ∧ t1.input = s1.input ∧ t1.responses = []
      ∧ t1.rc = 0 := by
  have hd1 : decode (andProgOf ec preds).instructions s1.pc
      = some (⟨.commit, 1, 0, 1, []⟩, L + 5 + 2) := by
    have h := dec_and_tail ec preds L hL 0 2 _ rfl
    simp only [add_zero] at h
    rw [hpc]
    exact h
  have h1 : step (andProgOf ec preds) ext s1
      = .ok ({ s1 with ir := 0, cr := 1, lr := 1, pc := L + 5 + 2 + 1, stack := [Frame.call 2], cutFrame := 0 }) := by
    simp only [step, hd1, hst, lowAnd, Machine.popTop, List.tail_cons, List.length_cons,
      List.length_nil, hcf, Nat.zero_min]
  have hd2 : decode (andProgOf ec preds).instructions (L + 5 + 2 + 1)
      = some (⟨.ret, 0, 0, 0, []⟩, L + 5 + 4) := by
    rw [show (L + 5 + 2 + 1 : Int) = L + 5 + 3 from by ring]
    exact dec_and_tail ec preds L hL 3 4 _ rfl
  have h2 : step (andProgOf ec preds) ext
      ({ s1 with ir := 0, cr := 1, lr := 1, pc := L + 5 + 2 + 1, stack := [Frame.call 2], cutFrame := 0 })
      = .ok ({ s1 with ir := 0, cr := 1, lr := 1, pc := 2, stack := ([] : List Frame), cutFrame := 0 }) := by
    simp only [step, hd2, Machine.popTop, List.tail_cons, List.length_nil, Nat.min_zero]
  have hd3 : decode (andProgOf ec preds).instructions 2
      = some (⟨.accept, 1, 0, 0, []⟩, 3) := dec_and_pre ec preds 2 3 _ rfl
  have h3 : step (andProgOf ec preds) ext
      ({ s1 with ir := 0, cr := 1, lr := 1, pc := 2, stack := ([] : List Frame), cutFrame := 0 })
      = .ok ({ s1 with input := s1.input, ir := 0, cr := 1, lr := 1, rc := 0, pc := 3, maxInput := { s1.maxInput with ir := 0 }, cutDeferred := false, cutFrame := 0, stack := ([] : List Frame), responses := ([] : List Response), result := true, done := true }) := by
    simp only [step, hd3, hasCaptureFrame, hasLrFrame, List.any_nil, Bool.or_self, if_false,
      Machine.acceptCommit, List.drop_zero, List.length_nil]
    rfl
  refine ⟨({ s1 with input := s1.input, ir := 0, cr := 1, lr := 1, rc := 0, pc := 3, maxInput := { s1.maxInput with ir := 0 }, cutDeferred := false, cutFrame := 0, stack := ([] : List Frame), responses := ([] : List Response), result := true, done := true }), ?_, rfl, rfl, rfl, rfl, rfl, rfl, rfl, rfl⟩
  simp only [stepN, h1, h2, h3]

theorem nn_exit_success (ec : List Word) (preds : List (Regs → Bool × Regs)) (ext : UnicodeExt)
    (L : Int) (hL : L = (ec.length : Int)) (s2 : Machine)
    (hpc : s2.pc = L + 7) (hst : s2.stack = lowNn L) (hcf : s2.cutFrame = 0) :
    ∃ t2, stepN (nnProgOf ec preds) ext 3 s2 = .ok t2 ∧ t2.done = true ∧ t2.result = true
      ∧ t2.ir = 0 ∧ t2.cr = 1 ∧ t2.lr = 1 ∧ t2.input = s2.input ∧ t2.responses = []
      ∧ t2.rc = 0 := by
  have hd1 : decode (nnProgOf ec preds).instructions s2.pc
      = some (⟨.fail, 0, 1, 0, []⟩, L + 7 + 1) := by
    have h := dec_nn_tail ec preds L hL 0 1 _ rfl
    simp only [add_zero] at h
    rw [hpc]
    exact h
  have hun : unwind ({ (updMax { s2 with pc := L + 7 + 1, fc := 1 }) with fc := 1 + 1 })
      = ({ (updMax { s2 with pc := L + 7 + 1, fc := 1 }) with ir := 0, cr := 1, lr := 1, rc := 0, pc := L + 9, fc := 0, stack := [Frame.call 2], cutFrame := 0 }) := by
    apply unwind_low2_two
    · rw [(updMax_proj _).2.2.2.2.2.2.2.2.2.1]
      exact hst
    · rw [(updMax_proj _).2.2.2.2.2.2.2.2.1]
      exact hcf
    · rfl
  have h1 : step (nnProgOf ec preds) ext s2
      = .ok (postFail (unwind ({ (updMax { s2 with pc := L + 7 + 1, fc := 1 }) with fc := 1 + 1 }))) := by
    simp only [step, hd1]
    rfl
  rw [hun] at h1
  have h1b : step (nnProgOf ec preds) ext s2
      = .ok ({ (updMax { s2 with pc := L + 7 + 1, fc := 1 }) with ir := 0, cr := 1, lr := 1, rc := 0, pc := L + 9, fc := 0, stack := [Frame.call 2], cutFrame := 0, responses := ([] : List Response) }) := by
    rw [h1]
    unfold postFail
    simp [popResponsesAfter_zero]
  have hd2 : decode (nnProgOf ec preds).instructions (L + 9)
      = some (⟨.ret, 0, 0, 0, []⟩, L + 7 + 3) := by
    rw [show (L + 9 : Int) = L + 7 + 2 from by ring]
    exact dec_nn_tail ec preds L hL 2 3 _ rfl
  have h2 : step (nnProgOf ec preds) ext
      ({ (updMax { s2 with pc := L + 7 + 1, fc := 1 }) with ir := 0, cr := 1, lr := 1, rc := 0, pc := L + 9, fc := 0, stack := [Frame.call 2], cutFrame := 0, responses := ([] : List Response) })
      = .ok ({ (updMax { s2 with pc := L + 7 + 1, fc := 1 }) with ir := 0, cr := 1, lr := 1, rc := 0, pc := 2, fc := 0, stack := ([] : List Frame), cutFrame := 0, responses := ([] : List Response) }) := by
    simp only [step, hd2, Machine.popTop, List.tail_cons, List.length_nil, Nat.min_zero]
  have hd3 : decode (nnProgOf ec preds).instructions 2
      = some (⟨.accept, 1, 0, 0, []⟩, 3) := dec_nn_pre ec preds 2 3 _ rfl
  have h3 : step (nnProgOf ec preds) ext
      ({ (updMax { s2 with pc := L + 7 + 1, fc := 1 }) with ir := 0, cr := 1, lr := 1, rc := 0, pc := 2, fc := 0, stack := ([] : List Frame), cutFrame := 0, responses := ([] : List Response) })
      = .ok ({ (updMax { s2 with pc := L + 7 + 1, fc := 1 }) with ir := 0, cr := 1, lr := 1, rc := 0, pc := 3, fc := 0, maxInput := { (updMax { s2 with pc := L + 7 + 1, fc := 1 }).maxInput with ir := 0 }, cutDeferred := false, cutFrame := 0, stack := ([] : List Frame), responses := ([] : List Response), result := true, done := true }) := by
    simp only [step, hd3, hasCaptureFrame, hasLrFrame, List.any_nil, Bool.or_self, if_false,
      Machine.acceptCommit, List.drop_zero, List.length_nil]
    rfl
  refine ⟨({ (updMax { s2 with pc := L + 7 + 1, fc := 1 }) with ir := 0, cr := 1, lr := 1, rc := 0, pc := 3, fc := 0, maxInput := { (updMax { s2 with pc := L + 7 + 1, fc := 1 }).maxInput with ir := 0 }, cutDeferred := false, cutFrame := 0, stack := ([] : List Frame), responses := ([] : List Response), result := true, done := true }), ?_, rfl, rfl, rfl, rfl, rfl, ?_, rfl, rfl⟩
  · simp only [stepN, h1b, h2, h3]
  · exact (updMax_proj _).1

theorem and_crossfail (ec : List Word) (preds : List (Regs → Bool × Regs)) (ext : UnicodeExt)
    (L : Int) (hL : L = (ec.length : Int)) (v1 : Machine)
    (hfc : v1.fc = 1) (hst : v1.stack = lowAnd L) (hcf : v1.cutFrame = 0)
    (hres : v1.result = false) :
    ∃ t1, stepN (andProgOf ec preds) ext 1 (postFail (unwind v1)) = .ok t1
      ∧ t1.done = true ∧ t1.result = false := by
  rw [unwind_low1_one L v1 hst hcf hfc]
  have hd1 : decode (andProgOf ec preds).instructions (L + 7)
      = some (⟨.fail, 0, 0, 0, []⟩, L + 5 + 3) := by
    rw [show (L + 7 : Int) = L + 5 + 2 from by ring]
    exact dec_and_tail ec preds L hL 2 3 _ rfl
  have h1 : stepN (andProgOf ec preds) ext 1
      (postFail ({ v1 with ir := 0, cr := 1, lr := 1, rc := 0, pc := L + 7, fc := 0, stack := [Frame.call 2], cutFrame := 0 }))
      = step (andProgOf ec preds) ext
        ({ v1 with ir := 0, cr := 1, lr := 1, rc := 0, pc := L + 7, fc := 0, stack := [Frame.call 2], cutFrame := 0, responses := ([] : List Response) }) := by
    unfold postFail
    simp only [stepN, popResponsesAfter_zero]
    cases hstep : step (andProgOf ec preds) ext
        ({ v1 with ir := 0, cr := 1, lr := 1, rc := 0, pc := L + 7, fc := 0, stack := [Frame.call 2], cutFrame := 0, responses := ([] : List Response) }) <;> rfl
  rw [h1]
  have h2 : step (andProgOf ec preds) ext
      ({ v1 with ir := 0, cr := 1, lr := 1, rc := 0, pc := L + 7, fc := 0, stack := [Frame.call 2], cutFrame := 0, responses := ([] : List Response) })
      = .ok (Machine.failWith ({ v1 with ir := 0, cr := 1, lr := 1, rc := 0, pc := L + 5 + 3, fc := 0, stack := [Frame.call 2], cutFrame := 0, responses := ([] : List Response) })) := by
    simp only [step, hd1]
  rw [h2]
  refine ⟨_, rfl, ?_, ?_⟩
  · unfold Machine.failWith Machine.updMax Machine.unwind
    simp [unwindAux, popResponsesAfter]
  · unfold Machine.failWith Machine.updMax Machine.unwind
    simp [unwindAux, popResponsesAfter, hres]

theorem nn_crossfail (ec : List Word) (preds : List (Regs → Bool × Regs)) (ext : UnicodeExt)
    (L : Int) (hL : L = (ec.length : Int)) (v2 : Machine)
    (hfc : v2.fc = 1) (hst : v2.stack = lowNn L) (hcf : v2.cutFrame = 0)
    (hres : v2.result = false) :
    ∃ t2, stepN (nnProgOf ec preds) ext 1 (postFail (unwind v2)) = .ok t2
      ∧ t2.done = true ∧ t2.result = false := by
  rw [unwind_low2_one L v2 hst hcf hfc]
  have hd1 : decode (nnProgOf ec preds).instructions (L + 8)
      = some (⟨.fail, 0, 1, 0, []⟩, L + 7 + 2) := by
    rw [show (L + 8 : Int) = L + 7 + 1 from by ring]
    exact dec_nn_tail ec preds L hL 1 2 _ rfl
  have h1 : stepN (nnProgOf ec preds) ext 1
      (postFail ({ v2 with ir := 0, cr := 1, lr := 1, rc := 0, pc := L + 8, fc := 0, stack := [Frame.backtrack 0 1 1 0 (L + 9), Frame.call 2], cutFrame := 0 }))
      = step (nnProgOf ec preds) ext
        ({ v2 with ir := 0, cr := 1, lr := 1, rc := 0, pc := L + 8, fc := 0, stack := [Frame.backtrack 0 1 1 0 (L + 9), Frame.call 2], cutFrame := 0, responses := ([] : List Response) }) := by
    unfold postFail
    simp only [stepN, popResponsesAfter_zero]
    cases hstep : step (nnProgOf ec preds) ext
        ({ v2 with ir := 0, cr := 1, lr := 1, rc := 0, pc := L + 8, fc := 0, stack := [Frame.backtrack 0 1 1 0 (L + 9), Frame.call 2], cutFrame := 0, responses := ([] : List Response) }) <;> rfl
  rw [h1]
  have h2 : step (nnProgOf ec preds) ext
      ({ v2 with ir := 0, cr := 1, lr := 1, rc := 0, pc := L + 8, fc := 0, stack := [Frame.backtrack 0 1 1 0 (L + 9), Frame.call 2], cutFrame := 0, responses := ([] : List Response) })
      = .ok (Machine.failWith ({ v2 with ir := 0, cr := 1, lr := 1, rc := 0, pc := L + 7 + 2, fc := 1, stack := [Frame.backtrack 0 1 1 0 (L + 9), Frame.call 2], cutFrame := 0, responses := ([] : List Response) })) := by
    simp only [step, hd1]
  rw [h2]
  refine ⟨_, rfl, ?_, ?_⟩
  · unfold Machine.failWith Machine.updMax Machine.unwind
    simp [unwindAux, popResponsesAfter]
  · unfold Machine.failWith Machine.updMax Machine.unwind
    simp [unwindAux, popResponsesAfter, hres]

theorem and_nn_entry (ec : List Word) (preds : List (Regs → Bool × Regs)) (ext : UnicodeExt)
    (input : List Nat) :
    stepN (andProgOf ec preds) ext 2 (initMachine input)
      = .ok ({ initMachine input with pc := 5, stack := [Frame.backtrack 0 1 1 0 (5 + (2 + (ec.length : Int))), Frame.call 2] })
    ∧ stepN (nnProgOf ec preds) ext 3 (initMachine input)
      = .ok ({ initMachine input with pc := 7, stack := [Frame.backtrack 0 1 1 0 (7 + ((ec.length : Int) + 1)), Frame.backtrack 0 1 1 0 (5 + ((ec.length : Int) + 4)), Frame.call 2] }) := by
  constructor
  · have hd0 : decode (andProgOf ec preds).instructions 0
        = some (⟨.call, 0, 0, 1, []⟩, 2) := dec_and_pre ec preds 0 2 _ rfl
    have hd3 : decode (andProgOf ec preds).instructions 3
        = some (⟨.choice, 0, 0, 2 + (ec.length : Int), []⟩, 5) := dec_and_pre ec preds 3 5 _ rfl
    have h1 : step (andProgOf ec preds) ext (initMachine input)
        = .ok ({ initMachine input with pc := 3, stack := [Frame.call 2] }) := by
      simp [step, hd0, initMachine]
    have h2 : step (andProgOf ec preds) ext ({ initMachine input with pc := 3, stack := [Frame.call 2] })
        = .ok ({ initMachine input with pc := 5, stack := [Frame.backtrack 0 1 1 0 (5 + (2 + (ec.length : Int))), Frame.call 2] }) := by
      simp [step, hd3, initMachine]
    simp only [stepN, h1, h2]
  · have hd0 : decode (nnProgOf ec preds).instructions 0
        = some (⟨.call, 0, 0, 1, []⟩, 2) := dec_nn_pre ec preds 0 2 _ rfl
    have hd3 : decode (nnProgOf ec preds).instructions 3
        = some (⟨.choice, 0, 0, (ec.length : Int) + 4, []⟩, 5) := dec_nn_pre ec preds 3 5 _ rfl
    have hd5 : decode (nnProgOf ec preds).instructions 5
        = some (⟨.choice, 0, 0, (ec.length : Int) + 1, []⟩, 7) := dec_nn_pre ec preds 5 7 _ rfl
    have h1 : step (nnProgOf ec preds) ext (initMachine input)
        = .ok ({ initMachine input with pc := 3, stack := [Frame.call 2] }) := by
      simp [step, hd0, initMachine]
    have h2 : step (nnProgOf ec preds) ext ({ initMachine input with pc := 3, stack := [Frame.call 2] })
        = .ok ({ initMachine input with pc := 5, stack := [Frame.backtrack 0 1 1 0 (5 + ((ec.length : Int) + 4)), Frame.call 2] }) := by
      simp [step, hd3, initMachine]
    have h3 : step (nnProgOf ec preds) ext ({ initMachine input with pc := 5, stack := [Frame.backtrack 0 1 1 0 (5 + ((ec.length : Int) + 4)), Frame.call 2] })
        = .ok ({ initMachine input with pc := 7, stack := [Frame.backtrack 0 1 1 0 (7 + ((ec.length : Int) + 1)), Frame.backtrack 0 1 1 0 (5 + ((ec.length : Int) + 4)), Frame.call 2] }) := by
      simp [step, hd5, initMachine]
    simp only [stepN, h1, h2, h3]

/-- Claim C6: the claimed equivalence of `&e` and `!!e` does not hold for
every expression: an `e` whose code executes `accept` (the `cut`
terminal) or a `predicate` instruction can make the two parses disagree,
because a committed cut raises `cut_frame_` into the `!!` program's
deeper backtrack context and a predicate can read the shifted program
counter; and even when the outcomes agree the final parser state and
response log differ.  For inline expression code free of `accept` and
`predicate` instructions that does not commit a context frame of the
lookahead itself, the two programs do produce the same parse outcome and
consume no input on success, proved as a lockstep simulation: after the
shared prologue the two machines agree up to the two-word `pc` shift and
their fixed context stacks; every such in-region step preserves the
relation or moves both machines into the failure path together; a
one-level failure crossing ends both parses with failure, and the
region's success exit ends both parses with success, the subject
restored to `(0, 1, 1)` with no input consumed. -/
theorem and_notnot_lockstep_equiv (ec : List Word) (preds : List (Regs → Bool × Regs))
    (ext : UnicodeExt) (L : Int) (hL : L = (ec.length : Int)) :
    (∀ input : List Nat, ∃ s1 s2,
        stepN (andProgOf ec preds) ext 2 (initMachine input) = .ok s1
        ∧ stepN (nnProgOf ec preds) ext 3 (initMachine input) = .ok s2
        ∧ SimF L [] s1 s2 ∧ s1.pc = 5 ∧ s1.ir = 0 ∧ s1.fc = 0 ∧ s1.input = input)
    ∧ (∀ F s1 s2 rel relJ d, SimF L F s1 s2 → s1.pc = 5 + rel →
        decode ec rel = some (d, relJ) →
        d.op ≠ .accept → d.op ≠ .predicate → (d.op = .commit → F ≠ []) →
        (∃ t1 t2, step (andProgOf ec preds) ext s1 = .ok t1
          ∧ step (nnProgOf ec preds) ext s2 = .ok t2
          ∧ (Sim L t1 t2 ∨ CrossFail L t1 t2))
        ∨ (step (andProgOf ec preds) ext s1 = .error .badOpcode
          ∧ step (nnProgOf ec preds) ext s2 = .error .badOpcode))
    ∧ (∀ v1 : Machine, v1.fc = 1 → v1.stack = lowAnd L → v1.cutFrame = 0 → v1.result = false →
        (∃ t1, stepN (andProgOf ec preds) ext 1 (postFail (unwind v1)) = .ok t1
          ∧ t1.done = true ∧ t1.result = false)
        ∧ (∃ t2, stepN (nnProgOf ec preds) ext 1
              (postFail (unwind ({ v1 with pc := v1.pc + 2, stack := lowNn L }))) = .ok t2
          ∧ t2.done = true ∧ t2.result = false))
    ∧ (∀ s1 s2 : Machine, SimF L [] s1 s2 → s1.pc = L + 5 →
        (∃ t1, stepN (andProgOf ec preds) ext 3 s1 = .ok t1 ∧ t1.done = true ∧ t1.result = true
          ∧ t1.ir = 0 ∧ t1.cr = 1 ∧ t1.lr = 1 ∧ t1.input = s1.input ∧ t1.responses = []
          ∧ t1.rc = 0)
        ∧ (∃ t2, stepN (nnProgOf ec preds) ext 3 s2 = .ok t2 ∧ t2.done = true ∧ t2.result = true
          ∧ t2.ir = 0 ∧ t2.cr = 1 ∧ t2.lr = 1 ∧ t2.input = s1.input ∧ t2.responses = []
          ∧ t2.rc = 0)) := by
  subst hL
  refine ⟨?_, ?_, ?_, ?_⟩
  · intro input
    refine ⟨_, _, (and_nn_entry ec preds ext input).1, (and_nn_entry ec preds ext input).2,
      ⟨?_, ?_, rfl, rfl, rfl, rfl⟩, rfl, rfl, rfl, rfl⟩
    · show [Frame.backtrack 0 1 1 0 (5 + (2 + (ec.length : Int))), Frame.call 2]
        = [] ++ lowAnd (ec.length : Int)
      rw [show (5 + (2 + (ec.length : Int)) : Int) = (ec.length : Int) + 7 from by ring]
      rfl
    · show ({ initMachine input with pc := 7, stack := [Frame.backtrack 0 1 1 0 (7 + ((ec.length : Int) + 1)), Frame.backtrack 0 1 1 0 (5 + ((ec.length : Int) + 4)), Frame.call 2] } : Machine)
        = _
      rw [show (7 + ((ec.length : Int) + 1) : Int) = (ec.length : Int) + 8 from by ring]
      rw [show (5 + ((ec.length : Int) + 4) : Int) = (ec.length : Int) + 9 from by ring]
      rfl
  · intro F s1 s2 rel relJ d hS hpc hdec hacc hpred hcom
    have hdec1 : decode (andProgOf ec preds).instructions s1.pc = some (d, 5 + relJ) := by
      rw [hpc]
      exact dec_and_window ec preds rel relJ d hdec
    have hdec2 : decode (nnProgOf ec preds).instructions (s1.pc + 2) = some (d, 5 + relJ + 2) := by
      rw [hpc]
      rw [show (5 + rel + 2 : Int) = 7 + rel from by ring]
      rw [show (5 + relJ + 2 : Int) = 7 + relJ from by ring]
      exact dec_nn_window ec preds rel relJ d hdec
    exact step_sim _ _ ext _ F s1 s2 d (5 + relJ) hS hdec1 hdec2 hacc hpred hcom
  · intro v1 hfc hst hcf hres
    refine ⟨and_crossfail ec preds ext _ rfl v1 hfc hst hcf hres, ?_⟩
    exact nn_crossfail ec preds ext _ rfl _ hfc rfl hcf hres
  · intro s1 s2 hS hpc
    obtain ⟨hst1, hs2, hres, hdone, hcd, hcf⟩ := hS
    subst hs2
    refine ⟨and_exit_success ec preds ext _ rfl s1 hpc (by simpa using hst1) hcf, ?_⟩
    have h := nn_exit_success ec preds ext _ rfl
        ({ s1 with pc := s1.pc + 2, stack := List.map (shiftFrame 2) [] ++ lowNn (ec.length : Int) })
        (by simp only [hpc]; ring) (by simp) hcf
    simpa using h

theorem and_notnot_outcome_cex :
    (run (andProgOf ecCut []) asciiExt 10 (initMachine [])).map
        (Option.map (fun t => t.result))
      = .ok (some true)
    ∧ (run (nnProgOf ecCut []) asciiExt 10 (initMachine [])).map
        (Option.map (fun t => t.result))
      = .ok (some false)
    ∧ (run (andProgOf ecPred [predPc]) asciiExt 10 (initMachine [])).map
        (Option.map (fun t => t.result))
      = .ok (some false)
    ∧ (run (nnProgOf ecPred [predPc]) asciiExt 10 (initMachine [])).map
        (Option.map (fun t => t.result))
      = .ok (some true)
    ∧ (run (andProgOf ecC6 []) asciiExt 10 (initMachine [97])).map
        (Option.map (fun t => (t.result, t.ir, t.maxInput.cr)))
      = .ok (some (true, 0, 1))
    ∧ (run (nnProgOf ecC6 []) asciiExt 10 (initMachine [97])).map
        (Option.map (fun t => (t.result, t.ir, t.maxInput.cr)))
      = .ok (some (true, 0, 2)) := ⟨rfl, rfl, rfl, rfl, rfl, rfl⟩

theorem and_notnot_lockstep_equiv_witness :
    (∃ s1 s2, stepN (andProgOf ecC6 []) asciiExt 2 (initMachine [97]) = .ok s1
      ∧ stepN (nnProgOf ecC6 []) asciiExt 3 (initMachine [97]) = .ok s2
      ∧ SimF 2 [] s1 s2 ∧ s1.pc = 5 ∧ s1.ir = 0 ∧ s1.fc = 0 ∧ s1.input = [97])
    ∧ ((∃ t1 t2, step (andProgOf ecC6 []) asciiExt sC6and = .ok t1
          ∧ step (nnProgOf ecC6 []) asciiExt sC6nn = .ok t2
          ∧ (Sim 2 t1 t2 ∨ CrossFail 2 t1 t2))
        ∨ (step (andProgOf ecC6 []) asciiExt sC6and = .error .badOpcode
          ∧ step (nnProgOf ecC6 []) asciiExt sC6nn = .error .badOpcode)) := by
  constructor
  · exact (and_notnot_lockstep_equiv ecC6 [] asciiExt 2 rfl).1 [97]
  · refine (and_notnot_lockstep_equiv ecC6 [] asciiExt 2 rfl).2.1 [] sC6and sC6nn 0 2
      ⟨.matchOp, 0, 1, 0, [97]⟩
      ⟨rfl, by decide, rfl, rfl, rfl, rfl⟩ (by decide) rfl (by decide) (by decide) ?_
    intro h
    exact absurd h (by decide)
end Theorems

end Lug
